import Mathlib

/-!
# Verification of the onebrc aggregation pipeline

A shallow embedding of `main.go` of the onebrc repository.  Files are lists
of bytes (`List Nat`); the partitioner's seek/read loops are embedded with
their exact error-ignoring semantics (a failed seek leaves the offset alone,
a read at end-of-file leaves the one-byte buffer alone); fallible code
returns `Option`/`Except`, with `none` for a panic or a hang.  Measurement
values are kept as exact rationals: the binary rounding of `float32` is the
one aspect of the source deliberately idealised.
-/

deriving instance DecidableEq for Except

namespace OneBRC

/-- Half-open byte range of the input file, as in the Go source
(`type Range struct`): `Begin` inclusive, `End` exclusive. -/
structure Range where
  Begin : Int
  End : Int
deriving DecidableEq, Repr

/-- The record delimiter byte (`MeasurementDelimeter`), a newline. -/
def measurementDelim : Nat := 10

/-- The field delimiter byte (`StationDelimeter`), a semicolon. -/
def stationDelim : Nat := 59

/-- State shared by the boundary-adjustment loops of `determineRanges`: the
file offset and the single one-byte buffer `b`.  The Go source allocates one
buffer and keeps one open file for the whole call, so both persist across
loop iterations and across the scans of successive boundaries. -/
structure ScanSt where
  offset : Nat
  b : Nat
deriving DecidableEq, Repr

/-- One `f.Seek(pos, 0)` followed by `f.Read(b)`, with every error ignored,
exactly as the adjustment loops do: a seek to a negative position fails and
leaves the offset unchanged; a read at or past end-of-file fails and leaves
the buffer unchanged; a successful read fills `b` with the byte at the
offset and advances the offset. -/
def seekRead (file : List Nat) (pos : Int) (s : ScanSt) : ScanSt :=
  let off : Nat := if 0 ≤ pos then pos.toNat else s.offset
  if h : off < file.length then
    { offset := off + 1, b := file.get ⟨off, h⟩ }
  else
    { offset := off, b := s.b }

/-- The boundary-adjustment loop of `determineRanges`: seek/read at the
candidate end position, stop one past it when the buffer holds the
delimiter, otherwise decrement and retry.  `fuel` bounds the iterations so
the function is total; `none` means the Go loop would still be running after
`fuel` iterations. -/
def scanLoop (file : List Nat) (delim : Nat) : Nat → Int → ScanSt → Option (Int × ScanSt)
  | 0, _, _ => none
  | fuel + 1, e, s =>
    let s' := seekRead file e s
    if s'.b = delim then some (e + 1, s')
    else scanLoop file delim fuel (e - 1) s'

/-- Fuel that provably suffices whenever the Go adjustment loop terminates
at all. -/
def scanFuel (file : List Nat) (e : Int) : Nat := file.length + e.toNat + 4

/-- The middle-range loop of `determineRanges` (`for i := 1; i < n-1; i++`):
each middle range begins at the previous range's end; its end starts
`approxSize` further right and is adjusted by the same seek/read loop.
Returns the middle ranges, the end of the last range built so far, and the
final offset/buffer state. -/
def buildMiddles (file : List Nat) (delim : Nat) (approxSize : Int) :
    Nat → Int → ScanSt → Option (List Range × Int × ScanSt)
  | 0, prevEnd, s => some ([], prevEnd, s)
  | k + 1, prevEnd, s =>
    let e0 := prevEnd + approxSize
    match scanLoop file delim (scanFuel file e0) e0 s with
    | none => none
    | some (e1, s1) =>
      match buildMiddles file delim approxSize k e1 s1 with
      | none => none
      | some (rs, eLast, sF) => some (⟨prevEnd, e1⟩ :: rs, eLast, sF)

/-- `determineRanges` from the source, over the file's bytes.  `some (.ok rs)`
when the Go function returns ranges, `some (.error msg)` when it returns one
of its two error values, `none` when it would not return at all (an
adjustment loop that never sees the delimiter spins forever; `n = 0` makes
`length / n` panic). -/
def determineRanges (file : List Nat) (n : Int) (delim : Nat) :
    Option (Except String (List Range)) :=
  let length : Int := (file.length : Int)
  if n = 1 then some (.ok [⟨0, length⟩])
  else if n = 0 then none
  else
    let approxSize := length / n
    if approxSize = 0 then some (.error "Num ranges too large for file length")
    else
      match scanLoop file delim (scanFuel file approxSize) approxSize ⟨0, 0⟩ with
      | none => none
      | some (e0, s0) =>
        if e0 < 0 then some (.error "Invalid range end. Too many chunks for file size?")
        else
          match buildMiddles file delim approxSize (n - 2).toNat e0 s0 with
          | none => none
          | some (mids, eLast, _) =>
            some (.ok (⟨0, e0⟩ :: (mids ++ [⟨eLast, length⟩])))

/-- Strip one trailing carriage return, as `bufio.ScanLines` does. -/
def dropCR (line : List Nat) : List Nat :=
  if line.getLast? = some 13 then line.dropLast else line

/-- Fueled worker of `splitLinesGo` below; the fuel only makes the recursion
structural and `splitLinesGo` always supplies enough. -/
def splitLinesF (maxTok : Nat) : Nat → List Nat → List (List Nat) × Bool
  | 0, _ => ([], false)
  | fuel + 1, data =>
    let line := data.takeWhile (fun c => !(c == measurementDelim))
    match data.dropWhile (fun c => !(c == measurementDelim)) with
    | [] =>
      if line.isEmpty then ([], false)
      else if line.length ≤ maxTok then ([dropCR line], false)
      else ([], true)
    | _ :: rest =>
      if line.length ≤ maxTok then
        let p := splitLinesF maxTok fuel rest
        (dropCR line :: p.1, p.2)
      else ([], true)

/-- The records a `bufio.Scanner` with maximum token size `maxTok` yields
from `data`, splitting on the newline delimiter, together with a flag set
when scanning stopped early because a record exceeded the token limit
(`bufio.ErrTooLong`).  A final record not terminated by a newline is
yielded; a trailing empty token is not.  The Go worker never inspects the
scanner's error, so the flag is computed here but ignored by `taskEmits`. -/
def splitLinesGo (maxTok : Nat) (data : List Nat) : List (List Nat) × Bool :=
  splitLinesF maxTok (data.length + 1) data

def isDigit (c : Nat) : Bool := 48 ≤ c && c ≤ 57

def digitsToNat (s : List Nat) : Nat := s.foldl (fun a c => a * 10 + (c - 48)) 0

/-- `strconv.ParseFloat` restricted to plain decimal literals, the value kept
as an exact rational: an optional minus sign, then digits with at most one
decimal point and at least one digit overall.  `none` models a parse error
(for which `ParseFloat` also returns the value 0 — see `processLines`).
Exponents, infinities, NaNs and `float32` rounding are outside the model. -/
def parseCore (t : List Nat) : Option ℚ :=
  match t.dropWhile isDigit with
  | [] => if (t.takeWhile isDigit).isEmpty then none
          else some ((digitsToNat (t.takeWhile isDigit) : Nat) : ℚ)
  | d :: fr =>
    if d == 46 && fr.all isDigit && !((t.takeWhile isDigit).isEmpty && fr.isEmpty) then
      some ((digitsToNat (t.takeWhile isDigit) : ℚ)
        + (digitsToNat fr : ℚ) / ((10 : ℚ) ^ fr.length))
    else none

def parseMeasurement (s : List Nat) : Option ℚ :=
  match s with
  | [] => none
  | c :: t => if c = 45 then (parseCore t).map (fun q => -q) else parseCore (c :: t)

/-- Per-key running statistics (`type Measurements struct`), values exact. -/
structure Measurements where
  Min : ℚ
  Max : ℚ
  Sum : ℚ
  Count : Nat
deriving DecidableEq, Repr

abbrev Key := List Nat

/-- A worker's key-to-statistics mapping, as an association list in first
insertion order (Go's `map[string]*Measurements`, observed through lookups). -/
abbrev ReadingsMap := List (Key × Measurements)

def lookupR : ReadingsMap → Key → Option Measurements
  | [], _ => none
  | (k', st) :: rest, k => if k' = k then some st else lookupR rest k

/-- First sight of a key: `{min=v, max=v, sum=v, count=1}`. -/
def initM (v : ℚ) : Measurements := ⟨v, v, v, 1⟩

/-- Repeat sight: `Sum += v; Min = min(Min, v); Max = max(Max, v);
Count += 1`. -/
def addM (st : Measurements) (v : ℚ) : Measurements :=
  ⟨min st.Min v, max st.Max v, st.Sum + v, st.Count + 1⟩

/-- The worker's per-record mapping update (`readings[station]`). -/
def updateReading : ReadingsMap → Key → ℚ → ReadingsMap
  | [], k, v => [(k, initM v)]
  | (k', st) :: rest, k, v =>
    if k' = k then (k', addM st v) :: rest
    else (k', st) :: updateReading rest k v

/-- The worker's semicolon scan
(`for { if buffer[pos] == StationDelimeter break; pos++ }`): position of the
first semicolon; `none` models the out-of-bounds index — a runtime panic —
reached when the record has none. -/
def scanStation : List Nat → Option Nat
  | [] => none
  | c :: rest =>
    if c = stationDelim then some 0
    else (scanStation rest).map (· + 1)

/-- A value sent on the result channel (`AggregationResult`): a completed
mapping, or an error carrying the bytes of the offending measurement
field. -/
inductive AggResult where
  | ok (m : ReadingsMap)
  | err (val : List Nat)
deriving DecidableEq, Repr

/-- The worker's loop over its records, collecting every value the Go `task`
sends on its channel, in order.  On a parse error the Go code sends an error
result but does not return: it keeps aggregating — using the value 0 that
`ParseFloat` returned alongside the error — and finally sends the mapping as
one further result.  `none` models the out-of-bounds panic of the semicolon
scan. -/
def processLines : List (List Nat) → ReadingsMap → List AggResult → Option (List AggResult)
  | [], m, sent => some (sent ++ [.ok m])
  | line :: rest, m, sent =>
    match scanStation line with
    | none => none
    | some pos =>
      let station := line.take pos
      let valBytes := line.drop (pos + 1)
      match parseMeasurement valBytes with
      | none => processLines rest (updateReading m station 0) (sent ++ [.err valBytes])
      | some v => processLines rest (updateReading m station v) sent

/-- The bytes a worker's `io.SectionReader` view of the file yields for a
range: reads clamp at end-of-file, and an empty or inverted section yields
nothing. -/
def chunkBytes (file : List Nat) (r : Range) : List Nat :=
  (file.drop r.Begin.toNat).take (r.End - r.Begin).toNat

/-- The Go `task` for one range: every value it sends on the result channel,
in order; `none` models a panic.  The scanner's error flag is dropped on the
floor, exactly as the source never calls `scanner.Err()`. -/
def taskEmits (file : List Nat) (r : Range) (maxTok : Nat) : Option (List AggResult) :=
  processLines (splitLinesGo maxTok (chunkBytes file r)).1 [] []

/-- The per-key combination of the merge loop in `run`, for a key present on
both sides: `Sum += Sum2; Min = min(Min, Min2); Max = max(Max, Max2);
Count += Count2`. -/
def combineM (a b : Measurements) : Measurements :=
  ⟨min a.Min b.Min, max a.Max b.Max, a.Sum + b.Sum, a.Count + b.Count⟩

/-- Merging a single worker entry into the accumulator mapping. -/
def mergeOne : ReadingsMap → Key × Measurements → ReadingsMap
  | [], e => [e]
  | (k', st) :: rest, e =>
    if k' = e.1 then (k', combineM st e.2) :: rest
    else (k', st) :: mergeOne rest e

/-- Folding one worker mapping into the accumulator, entry by entry
(the inner `for station, measurements := range subreadings.Measurements`
loop of `run`). -/
def mergeMaps (acc : ReadingsMap) (m : ReadingsMap) : ReadingsMap :=
  m.foldl mergeOne acc

/-- The merge loop of `run`: receive `n` results in arrival order, and on the
first error result return it at once — the Go code returns without receiving
anything further.  The second component counts how many results were
received.  `none` models blocking forever on a channel nobody will send
on. -/
def mergerRun : Nat → List AggResult → ReadingsMap → Option (Except (List Nat) ReadingsMap) × Nat
  | 0, _, acc => (some (.ok acc), 0)
  | _ + 1, [], _ => (none, 0)
  | n + 1, r :: rest, acc =>
    match r with
    | .err e => (some (.error e), 1)
    | .ok m =>
      let p := mergerRun n rest (mergeMaps acc m)
      (p.1, p.2 + 1)

inductive RunErr where
  | config (msg : String)
  | badValue (val : List Nat)
deriving DecidableEq, Repr

/-- The pipeline of `run` for `n` workers, with task results modelled as
arriving in range order (for success results the per-key merge over the
exact values used here is arrival-order independent — see the C4 theorem;
under binary32 sums it is not, see `C4_cex`).  `none` models a panic, a
hang, or an out-of-range index into `ranges`. -/
def runModel (file : List Nat) (n : Int) (maxTok : Nat) :
    Option (Except RunErr ReadingsMap) :=
  match determineRanges file n measurementDelim with
  | none => none
  | some (.error e) => some (.error (.config e))
  | some (.ok rs) =>
    let k := n.toNat
    let used := rs.take k
    if used.length < k then none
    else
      match used.mapM (fun r => taskEmits file r maxTok) with
      | none => none
      | some emissions =>
        match (mergerRun k emissions.flatten []).1 with
        | none => none
        | some (.error e) => some (.error (.badValue e))
        | some (.ok m) => some (.ok m)

/-- One formatted output entry: station, min, mean, max (exact values; the
`%.1f` rendering is outside the model). -/
abbrev OutEntry := Key × ℚ × ℚ × ℚ

/-- `writeOutput` from the source.  For each station it looks up the entry
and immediately computes `mean := v.Sum / float32(v.Count)` — dereferencing
the entry pointer — and only afterwards checks the lookup's `ok` flag.  A
station missing from the mapping therefore dereferences a nil pointer before
that check: `none` models this panic, and the `ConsistencyError` return
below it (`Missing entry for key ...`) is unreachable. -/
def writeOutput : List Key → ReadingsMap → Option (Except String (List OutEntry))
  | [], _ => some (.ok [])
  | st :: rest, readings =>
    match lookupR readings st with
    | none => none
    | some v =>
      match writeOutput rest readings with
      | none => none
      | some (.error e) => some (.error e)
      | some (.ok es) => some (.ok ((st, v.Min, v.Sum / (v.Count : ℚ), v.Max) :: es))

/-! ## Derived notions used in the statements -/

/-- Membership of a byte offset in a range. -/
def inRange (r : Range) (x : Int) : Prop := r.Begin ≤ x ∧ x < r.End

instance : DecidablePred fun p : Range × Int => inRange p.1 p.2 :=
  fun _ => by unfold inRange; infer_instance

instance (r : Range) (x : Int) : Decidable (inRange r x) := by
  unfold inRange; infer_instance

/-- A byte offset covered by some range of the list. -/
def coveredBy (rs : List Range) (x : Int) : Prop := ∃ r ∈ rs, inRange r x

instance (rs : List Range) (x : Int) : Decidable (coveredBy rs x) := by
  unfold coveredBy; infer_instance

/-- No offset lies in two distinct ranges of the list. -/
def DisjointRanges (rs : List Range) : Prop :=
  rs.Pairwise fun r r' => ∀ x, inRange r x → ¬ inRange r' x

/-- Consecutive ranges abut: each range's `End` is the next range's
`Begin`. -/
def Contiguous : List Range → Prop
  | [] => True
  | [_] => True
  | r :: r' :: rest => r.End = r'.Begin ∧ Contiguous (r' :: rest)

/-- `e` points one byte past an occurrence of `delim` in `file`. -/
def delimAt (file : List Nat) (delim : Nat) (e : Int) : Prop :=
  1 ≤ e ∧ file[(e - 1).toNat]? = some delim

instance (file : List Nat) (delim : Nat) (e : Int) : Decidable (delimAt file delim e) := by
  unfold delimAt; infer_instance

/-- The backward adjustment of the first boundary underflows below the start
of the file: no record delimiter occurs at any offset up to the initial
candidate boundary `length / n`. -/
def firstScanUnderflows (file : List Nat) (n : Int) (delim : Nat) : Prop :=
  (file.take (((file.length : Int) / n).toNat + 1)).all (fun c => !(c == delim)) = true

instance (file : List Nat) (n : Int) (delim : Nat) :
    Decidable (firstScanUnderflows file n delim) := by
  unfold firstScanUnderflows; infer_instance

/-- The result of `determineRanges` is the configuration-error case. -/
def isConfigErr (res : Option (Except String (List Range))) : Prop :=
  ∃ msg, res = some (.error msg)

instance (res : Option (Except String (List Range))) : Decidable (isConfigErr res) := by
  unfold isConfigErr
  match res with
  | none => exact .isFalse (by simp)
  | some (.ok rs) => exact .isFalse (by simp)
  | some (.error m) => exact .isTrue ⟨m, rfl⟩

/-- A record of the input file: the key bytes and the measurement bytes. -/
structure RecordR where
  key : List Nat
  val : List Nat
deriving DecidableEq, Repr

/-- `key;val` followed by the record delimiter. -/
def encodeRecord (r : RecordR) : List Nat :=
  r.key ++ stationDelim :: (r.val ++ [measurementDelim])

/-- A file made of encoded records. -/
def encodeFile (rsc : List RecordR) : List Nat := (rsc.map encodeRecord).flatten

/-- The scanner token for a record: `key;val` without the newline. -/
def lineOf (r : RecordR) : List Nat := r.key ++ stationDelim :: r.val

/-- A record every stage handles cleanly: no newline or semicolon inside the
key, a measurement field that parses, and a token short enough for the
scanner. -/
def WFRecord (maxTok : Nat) (r : RecordR) : Prop :=
  measurementDelim ∉ r.key ∧ stationDelim ∉ r.key ∧
    (parseMeasurement r.val).isSome = true ∧
    r.key.length + r.val.length + 1 ≤ maxTok

instance (maxTok : Nat) (r : RecordR) : Decidable (WFRecord maxTok r) := by
  unfold WFRecord; infer_instance

/-- The key/value pair a record contributes to the aggregation. -/
def pairOf (r : RecordR) : Key × ℚ := (r.key, (parseMeasurement r.val).getD 0)

/-- Aggregating a list of key/value pairs into a fresh mapping, as the worker
loop does. -/
def aggPairs (ps : List (Key × ℚ)) : ReadingsMap :=
  ps.foldl (fun m p => updateReading m p.1 p.2) []

def keysOf (m : ReadingsMap) : List Key := m.map (·.1)

/-- The mapping binds each key at most once (true of every mapping the
program builds; Go maps enforce it by construction). -/
def NodupKeys (m : ReadingsMap) : Prop := (keysOf m).Nodup

instance (m : ReadingsMap) : Decidable (NodupKeys m) := by
  unfold NodupKeys; infer_instance

/-- `combineM` lifted to optional statistics (absent keys merge by
insertion). -/
def combineO : Option Measurements → Option Measurements → Option Measurements
  | none, b => b
  | some a, none => some a
  | some a, some b => some (combineM a b)

/-- Merging a list of worker mappings left to right into an empty
accumulator, as `run`'s outer merge loop does over arriving results. -/
def foldMergeMaps (ms : List ReadingsMap) : ReadingsMap := ms.foldl mergeMaps []

/-- The statistics of a list of observed values (none if empty). -/
def statsO : List ℚ → Option Measurements
  | [] => none
  | v :: vs => some (vs.foldl addM (initM v))

/-- The values observed for one key in a list of pairs. -/
def valuesOf (ps : List (Key × ℚ)) (k : Key) : List ℚ :=
  (ps.filter fun p => p.1 == k).map (·.2)

/-- The boundary chain invariant of a built range list: starting from
boundary `e`, consecutive ranges abut, ends never move left of their range's
begin, and every end still inside the file points one byte past a record
delimiter; `eL` is the final boundary. -/
def ChainOK (file : List Nat) (delim : Nat) : Int → List Range → Int → Prop
  | e, [], eL => eL = e
  | e, r :: rest, eL =>
    r.Begin = e ∧ e ≤ r.End ∧ 1 ≤ r.End ∧
      (r.End ≤ (file.length : Int) → delimAt file delim r.End) ∧
      ChainOK file delim r.End rest eL

/-- A contiguous, left-to-right chain of ranges from boundary `a` to
boundary `b`: each range begins where the previous ended and no range is
inverted. -/
def ChainCov : Int → List Range → Int → Prop
  | a, [], b => b = a
  | a, r :: rest, b => r.Begin = a ∧ a ≤ r.End ∧ ChainCov r.End rest b

/-- The error results a worker sends while scanning `lines`: one per record
whose measurement field fails to parse (records whose semicolon scan panics
produce no result at all). -/
def badResults (lines : List (List Nat)) : List AggResult :=
  lines.filterMap fun line =>
    match scanStation line with
    | none => none
    | some pos =>
      match parseMeasurement (line.drop (pos + 1)) with
      | none => some (.err (line.drop (pos + 1)))
      | some _ => none

/-- Fueled worker of `splitNLraw` below. -/
def splitRawF : Nat → List Nat → List (List Nat)
  | 0, _ => []
  | fuel + 1, data =>
    let line := data.takeWhile (fun c => !(c == measurementDelim))
    match data.dropWhile (fun c => !(c == measurementDelim)) with
    | [] => if line.isEmpty then [] else [line]
    | _ :: rest => line :: splitRawF fuel rest

/-- All newline-separated records of `data`, raw (no token-size limit, no
carriage-return stripping), the trailing empty token dropped: the records a
scanner without a size limit would see. -/
def splitNLraw (data : List Nat) : List (List Nat) := splitRawF (data.length + 1) data

/-- Length of the encoding of the first `j` records: the byte offset at which
record `j` starts. -/
def cumLen (rsc : List RecordR) (j : Nat) : Nat := (encodeFile (rsc.take j)).length

/-! ### The binary32 fragment of the pipeline

The source stores `Min`, `Max` and `Sum` as `float32` (`main.go` lines
22-25) and accumulates `Sum` with binary32 addition (lines 193 and 245),
while the model above keeps values as exact rationals.  To examine what the
rounding changes, the following definitions model the `Sum` field of the
pipeline exactly, on the fragment where every measurement field is a string
of decimal digits: every binary32 quantity arising is then a nonnegative
integer, `strconv.ParseFloat(s, 32)` yields the integer denoted by `s`
rounded to the nearest binary32 (ties to even), and binary32 addition is
the exact sum rounded the same way.  Rounding an integer to binary32 keeps
its 24 most significant bits and rounds the rest to nearest, ties to
even. -/

/-- Number of binary digits of `n`; the fuel only makes the recursion
structural and `bitLen n n` always has enough. -/
def bitLen : Nat → Nat → Nat
  | 0, _ => 0
  | fuel + 1, n => if n = 0 then 0 else bitLen fuel (n / 2) + 1

/-- Round-to-nearest-even of a nonnegative integer to 24 significant binary
digits: the binary32 value of an integer-valued measurement. -/
def f32round (n : Nat) : Nat :=
  let b := bitLen n n
  if b ≤ 24 then n
  else
    let s := b - 24
    let q := n / 2 ^ s
    let r := n % 2 ^ s
    let h := 2 ^ (s - 1)
    let q1 := if h < r then q + 1 else if r < h then q else if q % 2 = 0 then q else q + 1
    q1 * 2 ^ s

/-- Binary32 addition of two nonnegative integer binary32 values: the exact
sum, rounded. -/
def f32add (a b : Nat) : Nat := f32round (a + b)

/-- `strconv.ParseFloat(s, 32)` on a nonempty string of decimal digits: the
integer it denotes, rounded to the nearest binary32; `none` on any other
string (outside this fragment). -/
def parseF32Int (s : List Nat) : Option Nat :=
  if s ≠ [] ∧ s.all isDigit then some (f32round (digitsToNat s)) else none

/-- The per-record update of the per-key binary32 `Sum`s, shared by the
worker (`v.Sum = v.Sum + m32`, `main.go` line 193) and the merger
(`v.Sum = v.Sum + measurements.Sum`, line 245): add under binary32 on a
repeat key, insert on a first sight. -/
def sumsUpd : List (Key × Nat) → Key → Nat → List (Key × Nat)
  | [], k, v => [(k, v)]
  | (k', s) :: rest, k, v =>
    if k' = k then (k', f32add s v) :: rest
    else (k', s) :: sumsUpd rest k v

/-- Worker loop over its records, `Sum` field only (`main.go` lines
169-207): `none` models the semicolon-scan panic or a measurement field
outside the digit-string fragment. -/
def taskSumsGo : List (List Nat) → List (Key × Nat) → Option (List (Key × Nat))
  | [], m => some m
  | line :: rest, m =>
    match scanStation line with
    | none => none
    | some pos =>
      match parseF32Int (line.drop (pos + 1)) with
      | none => none
      | some v => taskSumsGo rest (sumsUpd m (line.take pos) v)

/-- The per-key binary32 `Sum`s one worker computes over one chunk. -/
def taskSums (maxTok : Nat) (chunk : List Nat) : Option (List (Key × Nat)) :=
  taskSumsGo (splitLinesGo maxTok chunk).1 []

/-- The merger's fold of one worker's `Sum`s into the accumulator
(`main.go` lines 242-258, `Sum` field only). -/
def mergeSums (acc : List (Key × Nat)) (m : List (Key × Nat)) : List (Key × Nat) :=
  m.foldl (fun a p => sumsUpd a p.1 p.2) acc

/-- The per-key binary32 `Sum`s of the whole run with `n` workers:
partition, per-chunk worker sums, merge in range order — the `Sum`
projection of `runModel`. -/
def runSums (file : List Nat) (n : Int) (maxTok : Nat) : Option (List (Key × Nat)) :=
  match determineRanges file n measurementDelim with
  | none => none
  | some (.error _) => none
  | some (.ok rs) =>
    let k := n.toNat
    let used := rs.take k
    if used.length < k then none
    else
      match used.mapM (fun r => taskSums maxTok (chunkBytes file r)) with
      | none => none
      | some ms => some (ms.foldl mergeSums [])

/-- The file `a;16777216\na;01\na;01\n`: one station, the values 2^24, 1
and 1, laid out so that with two workers the boundary scan settles exactly
at the end of the first record. -/
def c3file : List Nat :=
  [97, 59, 49, 54, 55, 55, 55, 50, 49, 54, 10, 97, 59, 48, 49, 10, 97, 59, 48, 49, 10]

/-! ### The NaN fragment of the value domain

`strconv.ParseFloat` also accepts the special literal `nan` in any letter
case and returns IEEE NaN; Go's builtin `min` and `max` on floats propagate
NaN and every ordered comparison with NaN is false.  The rational value
domain above cannot express this, so the following definitions extend it
with a NaN point, for the fragment of the worker's mapping update that the
NaN behaviour reaches. -/

/-- A float value in the fragment needed to track NaN: an exact value or
NaN. -/
inductive FV where
  | nan : FV
  | val (q : ℚ) : FV
deriving DecidableEq

/-- Go's builtin `min` on floats: NaN if either operand is NaN. -/
def fmin : FV → FV → FV
  | .nan, _ => .nan
  | _, .nan => .nan
  | .val a, .val b => .val (min a b)

/-- Go's builtin `max` on floats: NaN if either operand is NaN. -/
def fmax : FV → FV → FV
  | .nan, _ => .nan
  | _, .nan => .nan
  | .val a, .val b => .val (max a b)

/-- IEEE addition on this fragment: NaN propagates (exact otherwise). -/
def fadd : FV → FV → FV
  | .nan, _ => .nan
  | _, .nan => .nan
  | .val a, .val b => .val (a + b)

/-- IEEE ordered `≤`: false whenever either operand is NaN. -/
def fle : FV → FV → Bool
  | .nan, _ => false
  | _, .nan => false
  | .val a, .val b => decide (a ≤ b)

/-- Lower-casing of an ASCII byte, as `strconv`'s case-insensitive matching
of special literals does. -/
def lowerByte (c : Nat) : Nat := if 65 ≤ c ∧ c ≤ 90 then c + 32 else c

/-- `parseMeasurement` extended with the NaN literal `strconv.ParseFloat`
also accepts: the unsigned word `nan` in any letter case parses to NaN;
every other string parses as before, to an exact value. -/
def parseMeasurementF (s : List Nat) : Option FV :=
  if s.map lowerByte = [110, 97, 110] then some .nan
  else (parseMeasurement s).map .val

/-- Per-key running statistics over the NaN-aware value domain. -/
structure MeasurementsF where
  Min : FV
  Max : FV
  Sum : FV
  Count : Nat
deriving DecidableEq

/-- First sight of a key, NaN-aware values. -/
def initMF (v : FV) : MeasurementsF := ⟨v, v, v, 1⟩

/-- Repeat sight, NaN-aware values: `Sum += v; Min = min(Min, v);
Max = max(Max, v); Count += 1`. -/
def addMF (st : MeasurementsF) (v : FV) : MeasurementsF :=
  ⟨fmin st.Min v, fmax st.Max v, fadd st.Sum v, st.Count + 1⟩

/-- The worker's per-record mapping update, NaN-aware values. -/
def updateReadingF : List (Key × MeasurementsF) → Key → FV → List (Key × MeasurementsF)
  | [], k, v => [(k, initMF v)]
  | (k', st) :: rest, k, v =>
    if k' = k then (k', addMF st v) :: rest
    else (k', st) :: updateReadingF rest k v

/-! ## Theorems -/

/-- C8: the claim says a sorted key with no entry in the merged mapping makes
the formatter fail with a ConsistencyError.  The code computes
`mean := v.Sum / float32(v.Count)` before checking the lookup's `ok` flag, so
a missing key dereferences a nil pointer; the ConsistencyError return below
the dereference is unreachable.  At the failing input — station list `["a"]`,
empty mapping — the formatter panics (`none`) and produces neither an error
value nor output. -/
theorem C8_writeOutput_nil_deref : writeOutput [[97]] [] = none := rfl

/-- C1 counterexample: for the 5-byte file of five newlines and worker count
4, `determineRanges` returns no error, yet the third range covers byte
offset 5, outside `[0, 5)`: a boundary scan that started past end-of-file
broke immediately on the delimiter left in the shared one-byte buffer by the
previous scan, so boundaries ran past the file and the last range is
inverted.  The union of the ranges is therefore not `[0, L)`. -/
theorem C1_cex :
    determineRanges [10, 10, 10, 10, 10] 4 10
        = some (.ok [⟨0, 2⟩, ⟨2, 4⟩, ⟨4, 6⟩, ⟨6, 5⟩]) ∧
      coveredBy [⟨0, 2⟩, ⟨2, 4⟩, ⟨4, 6⟩, ⟨6, 5⟩] 5 ∧
      ¬ ((0 : Int) ≤ 5 ∧ (5 : Int) < 5) :=
  ⟨by decide, by decide, by decide⟩

/-- C6 counterexample: on the 2-byte file `"ab"` with worker count 2 the
backward adjustment of the first boundary underflows below the start of the
file, but since the file contains no delimiter at all the adjustment loop
never breaks: `determineRanges` hangs (`none`) instead of failing with a
ConfigurationError. -/
theorem C6_cex :
    firstScanUnderflows [97, 98] 2 10 ∧
      determineRanges [97, 98] 2 10 = none ∧
      ¬ isConfigErr (determineRanges [97, 98] 2 10) :=
  ⟨by decide, by decide, by decide⟩

/-- C2 counterexample: on the chunk `"a;x\nb;1\n"` the task does not stop at
the failed parse of `"x"`: it sends a ParseError result, keeps aggregating —
recording the failed record under key `"a"` with the value 0 that
`ParseFloat` returned alongside the error — processes the following record
`"b;1"`, and finally sends a second, success result.  Two results, not one. -/
theorem C2_cex :
    taskEmits [97, 59, 120, 10, 98, 59, 49, 10] ⟨0, 8⟩ 100
        = some [.err [120], .ok [([97], ⟨0, 0, 0, 1⟩), ([98], ⟨1, 1, 1, 1⟩)]] ∧
      (taskEmits [97, 59, 120, 10, 98, 59, 49, 10] ⟨0, 8⟩ 100).map List.length = some 2 ∧
      (2 : Nat) ≠ 1 :=
  ⟨by decide, by decide, by decide⟩

/-- C5 counterexample: with two workers whose results arrive as an error
followed by a success, the merge loop of `run` returns the error after
receiving only the first result — the remaining worker's result is never
received, contradicting the claim that the merger drains every remaining
result before returning. -/
theorem C5_cex :
    mergerRun 2 [.err [120], .ok []] [] = (some (.error [120]), 1) ∧ (1 : Nat) ≠ 2 :=
  ⟨by decide, by decide⟩

/-- C5 amended: if any worker's result is an error, the merge fails with the
first error in arrival order and returns at once, having received exactly
the results up to and including that error — results after it are never
received and no further computation is performed on them. -/
theorem C5_amended (oks : List ReadingsMap) (e : List Nat) (rest : List AggResult)
    (n : Nat) (acc : ReadingsMap) (h : oks.length < n) :
    mergerRun n (oks.map .ok ++ .err e :: rest) acc = (some (.error e), oks.length + 1) := by
  induction oks generalizing n acc with
  | nil =>
    match n, h with
    | n + 1, _ => rfl
  | cons m ms ih =>
    match n, h with
    | n + 1, h =>
      have := ih n (mergeMaps acc m) (by simpa using h)
      simp [mergerRun, this]

theorem C5_amended_witness :
    ([[]] : List ReadingsMap).length < 3 ∧
      mergerRun 3 [.ok [], .err [120], .ok []] [] = (some (.error [120]), 2) :=
  ⟨by decide, C5_amended [[]] [120] [.ok []] 3 [] (by decide)⟩

/-- C9: the semicolon scan of the worker is total exactly for records
containing a semicolon: on a record with one it returns a position, and on a
record without one it runs past the end of the buffer — a runtime panic
(modelled `none`) that aborts the whole task without any ParseError result
being sent. -/
theorem C9_semicolon_scan (line : List Nat) :
    (stationDelim ∉ line → scanStation line = none) ∧
      (stationDelim ∈ line → (scanStation line).isSome = true) ∧
      (∀ rest m sent, stationDelim ∉ line → processLines (line :: rest) m sent = none) := by
  refine ⟨?_, ?_, ?_⟩
  · intro h
    induction line with
    | nil => rfl
    | cons c cs ih =>
      have hc : ¬ c = stationDelim := fun hc => h (hc ▸ List.mem_cons_self c cs)
      have hcs : stationDelim ∉ cs := fun hm => h (List.mem_cons_of_mem c hm)
      simp [scanStation, hc, ih hcs]
  · intro h
    induction line with
    | nil => exact absurd h (List.not_mem_nil _)
    | cons c cs ih =>
      by_cases hc : c = stationDelim
      · simp [scanStation, hc]
      · have hcs : stationDelim ∈ cs := by
          rcases List.mem_cons.mp h with h' | h'
          · exact absurd h'.symm hc
          · exact h'
        simp [scanStation, hc]
        simpa using ih hcs
  · intro rest m sent h
    have hnone : scanStation line = none := by
      induction line with
      | nil => rfl
      | cons c cs ih =>
        have hc : ¬ c = stationDelim := fun hc => h (hc ▸ List.mem_cons_self c cs)
        have hcs : stationDelim ∉ cs := fun hm => h (List.mem_cons_of_mem c hm)
        simp [scanStation, hc, ih hcs]
    simp [processLines, hnone]

theorem C9_witness :
    ((stationDelim ∉ ([97, 98] : List Nat)) ∧ scanStation [97, 98] = none) ∧
      processLines [[97, 98]] [] [] = none :=
  ⟨⟨by decide, (C9_semicolon_scan [97, 98]).1 (by decide)⟩,
    (C9_semicolon_scan [97, 98]).2.2 [] [] [] (by decide)⟩

/-! ### The boundary-adjustment loop -/

lemma scanLoop_succ (file : List Nat) (delim : Nat) (fuel : Nat) (e : Int) (s : ScanSt) :
    scanLoop file delim (fuel + 1) e s =
      if (seekRead file e s).b = delim then some (e + 1, seekRead file e s)
      else scanLoop file delim fuel (e - 1) (seekRead file e s) := rfl

lemma seekRead_read (file : List Nat) (pos : Int) (s : ScanSt)
    (h0 : 0 ≤ pos) (h1 : pos.toNat < file.length) :
    seekRead file pos s = ⟨pos.toNat + 1, file.get ⟨pos.toNat, h1⟩⟩ := by
  unfold seekRead
  simp only [h0, if_pos]
  rw [dif_pos h1]

lemma seekRead_eof (file : List Nat) (pos : Int) (s : ScanSt)
    (h0 : 0 ≤ pos) (h1 : file.length ≤ pos.toNat) :
    seekRead file pos s = ⟨pos.toNat, s.b⟩ := by
  unfold seekRead
  simp only [h0, if_pos]
  rw [dif_neg (by omega)]

lemma seekRead_neg_read (file : List Nat) (pos : Int) (s : ScanSt)
    (h0 : pos < 0) (h1 : s.offset < file.length) :
    seekRead file pos s = ⟨s.offset + 1, file.get ⟨s.offset, h1⟩⟩ := by
  unfold seekRead
  simp only [show ¬ 0 ≤ pos by omega, if_neg, not_false_iff]
  rw [dif_pos h1]

lemma seekRead_neg_eof (file : List Nat) (pos : Int) (s : ScanSt)
    (h0 : pos < 0) (h1 : file.length ≤ s.offset) :
    seekRead file pos s = ⟨s.offset, s.b⟩ := by
  unfold seekRead
  simp only [show ¬ 0 ≤ pos by omega, if_neg, not_false_iff]
  rw [dif_neg (by omega)]

/-- The adjustment loop never moves below a delimiter position it must read
on the way down: if a delimiter sits at offset `q0 ≤ p`, any result of the
loop is at least `q0 + 1`. -/
lemma scanLoop_lb (file : List Nat) (delim : Nat) :
    ∀ (fuel : Nat) (p e : Int) (s s' : ScanSt) (q0 : Nat),
      scanLoop file delim fuel p s = some (e, s') →
      (q0 : Int) ≤ p → file[q0]? = some delim →
      (q0 : Int) + 1 ≤ e := by
  intro fuel
  induction fuel with
  | zero => intro p e s s' q0 h; exact absurd h (by simp [scanLoop])
  | succ n ih =>
    intro p e s s' q0 h hq hdel
    rw [scanLoop_succ] at h
    by_cases hb : (seekRead file p s).b = delim
    · rw [if_pos hb] at h
      have : p + 1 = e := congrArg Prod.fst (Option.some.inj h)
      omega
    · rw [if_neg hb] at h
      by_cases hq' : (q0 : Int) ≤ p - 1
      · exact ih _ _ _ _ _ h hq' hdel
      · exfalso
        obtain ⟨hlt, hget⟩ := List.getElem?_eq_some.mp hdel
        have hpq : p = (q0 : Int) := by omega
        have h0 : (0 : Int) ≤ p := by omega
        have htn : p.toNat = q0 := by omega
        have := seekRead_read file p s h0 (by omega)
        apply hb
        rw [this]
        simp only [List.get_eq_getElem, htn]
        exact hget

/-- Whatever the adjustment loop returns, the buffer ends holding the
delimiter, and the returned boundary is either non-positive, past the end of
the file, or one byte past a real delimiter occurrence. -/
lemma scanLoop_post (file : List Nat) (delim : Nat) :
    ∀ (fuel : Nat) (p e : Int) (s s' : ScanSt),
      scanLoop file delim fuel p s = some (e, s') →
      s'.b = delim ∧
        (e ≤ 0 ∨ (file.length : Int) < e ∨
          (1 ≤ e ∧ e ≤ (file.length : Int) ∧ file[(e - 1).toNat]? = some delim)) := by
  intro fuel
  induction fuel with
  | zero => intro p e s s' h; exact absurd h (by simp [scanLoop])
  | succ n ih =>
    intro p e s s' h
    rw [scanLoop_succ] at h
    by_cases hb : (seekRead file p s).b = delim
    · rw [if_pos hb] at h
      obtain ⟨he, hs⟩ := Prod.mk.injEq .. ▸ Option.some.inj h
      subst hs
      refine ⟨hb, ?_⟩
      by_cases hp : 0 ≤ p
      · by_cases hlt : p.toNat < file.length
        · right; right
          rw [seekRead_read file p s hp hlt] at hb
          refine ⟨by omega, by omega, ?_⟩
          have : (e - 1).toNat = p.toNat := by omega
          rw [this]
          rw [List.getElem?_eq_getElem hlt]
          simpa using hb
        · right; left
          omega
      · left; omega
    · rw [if_neg hb] at h
      exact ih _ _ _ _ h

/-- Starting at or past end-of-file with the buffer already holding the
delimiter, the loop breaks at once (the failed read leaves the stale
byte). -/
lemma scanLoop_eof (file : List Nat) (delim : Nat) (fuel : Nat) (p : Int) (s : ScanSt)
    (h0 : 0 ≤ p) (h1 : file.length ≤ p.toNat) (hb : s.b = delim) :
    scanLoop file delim (fuel + 1) p s = some (p + 1, ⟨p.toNat, s.b⟩) := by
  rw [scanLoop_succ, seekRead_eof file p s h0 h1]
  simp [hb]

/-- On a file containing no delimiter at all the loop never breaks: the Go
loop runs forever. -/
lemma scanLoop_none_of_no_delim (file : List Nat) (delim : Nat) (hno : delim ∉ file) :
    ∀ (fuel : Nat) (p : Int) (s : ScanSt), s.b ≠ delim → scanLoop file delim fuel p s = none := by
  intro fuel
  induction fuel with
  | zero => intros; rfl
  | succ n ih =>
    intro p s hb
    rw [scanLoop_succ]
    have hb' : (seekRead file p s).b ≠ delim := by
      unfold seekRead
      set off := if 0 ≤ p then p.toNat else s.offset with hoff
      by_cases hlt : off < file.length
      · rw [dif_pos hlt]
        intro hcontra
        exact hno (hcontra ▸ List.get_mem file off hlt)
      · rw [dif_neg hlt]
        exact hb
    rw [if_neg hb']
    exact ih _ _ hb'

/-- Backward phase of an underflowing first scan: with no delimiter at any
offset up to `p`, the loop walks from `p` down past offset 0 and arrives at
candidate `-1` with the file offset at 1 and the buffer holding byte 0. -/
lemma scanLoop_phase1 (file : List Nat) (delim : Nat) (hL : 0 < file.length) :
    ∀ (p : Nat) (fuel : Nat) (s : ScanSt),
      p < file.length →
      (∀ q : Nat, q ≤ p → file[q]? ≠ some delim) →
      scanLoop file delim (fuel + (p + 1)) (p : Int) s
        = scanLoop file delim fuel (-1) ⟨1, file.get ⟨0, hL⟩⟩ := by
  intro p
  induction p with
  | zero =>
    intro fuel s hp hq
    rw [scanLoop_succ]
    have hsr : seekRead file ((0 : Nat) : Int) s = ⟨1, file.get ⟨0, hL⟩⟩ := by
      have h1 : ((0 : Nat) : Int).toNat < file.length := by simpa using hL
      rw [seekRead_read file ((0 : Nat) : Int) s (by simp) h1]
      simp [List.get_eq_getElem]
    have hb : ¬ (seekRead file ((0 : Nat) : Int) s).b = delim := by
      rw [hsr]
      intro hcontra
      exact hq 0 le_rfl (by rw [List.getElem?_eq_getElem hL]; simpa using hcontra)
    rw [if_neg hb, hsr]
    norm_num
  | succ m ih =>
    intro fuel s hp hq
    rw [show fuel + (m + 1 + 1) = (fuel + (m + 1)) + 1 by omega, scanLoop_succ]
    have hlt : ((m + 1 : Nat) : Int).toNat < file.length := by simpa using hp
    have hsr := seekRead_read file ((m + 1 : Nat) : Int) s (by positivity) hlt
    have hb : ¬ (seekRead file ((m + 1 : Nat) : Int) s).b = delim := by
      rw [hsr]
      intro hcontra
      apply hq (m + 1) le_rfl
      rw [List.getElem?_eq_getElem (by simpa using hp)]
      simp only [List.get_eq_getElem] at hcontra
      simp only [Option.some.injEq]
      simpa using hcontra
    rw [if_neg hb]
    rw [show ((m + 1 : Nat) : Int) - 1 = ((m : Nat) : Int) by push_cast; ring]
    exact ih fuel _ (by omega) (fun q hq' => hq q (by omega))

/-- Forward phase after underflow: with a negative candidate the failed seek
leaves the offset where the last read put it, so reads walk forward from
offset `j` while the candidate keeps decrementing; the loop breaks on the
delimiter at offset `j + d` with boundary `1 - (j + d)`. -/
lemma scanLoop_phase2 (file : List Nat) (delim : Nat) :
    ∀ (d j fuel : Nat) (b : Nat),
      1 ≤ j →
      j + d < file.length →
      (∀ i : Nat, j ≤ i → i < j + d → file[i]? ≠ some delim) →
      file[j + d]? = some delim →
      ∃ s', scanLoop file delim (fuel + (d + 1)) (-(j : Int)) ⟨j, b⟩
          = some (1 - ((j + d : Nat) : Int), s') := by
  intro d
  induction d with
  | zero =>
    intro j fuel b hj hlen hno hdel
    rw [scanLoop_succ]
    have hsr := seekRead_neg_read file (-(j : Int)) ⟨j, b⟩ (by omega) (by simpa using hlen)
    obtain ⟨hlt, hget⟩ := List.getElem?_eq_some.mp hdel
    have hb : (seekRead file (-(j : Int)) ⟨j, b⟩).b = delim := by
      rw [hsr]
      simpa using hget
    rw [if_pos hb]
    exact ⟨_, by congr 1; congr 1; push_cast; ring⟩
  | succ d ih =>
    intro j fuel b hj hlen hno hdel
    rw [show fuel + (d + 1 + 1) = (fuel + (d + 1)) + 1 by omega, scanLoop_succ]
    have hjlt : (⟨j, b⟩ : ScanSt).offset < file.length := by simp; omega
    have hsr := seekRead_neg_read file (-(j : Int)) ⟨j, b⟩ (by omega) hjlt
    have hb : ¬ (seekRead file (-(j : Int)) ⟨j, b⟩).b = delim := by
      rw [hsr]
      intro hcontra
      apply hno j le_rfl (by omega)
      rw [List.getElem?_eq_getElem (by omega)]
      simpa using hcontra
    rw [if_neg hb, hsr]
    rw [show -(j : Int) - 1 = -((j + 1 : Nat) : Int) by push_cast; ring]
    obtain ⟨s', hs'⟩ := ih (j + 1) fuel (file.get ⟨j, hjlt⟩) (by omega) (by omega)
      (fun i hi1 hi2 => hno i (by omega) (by omega)) (by convert hdel using 2; omega)
    refine ⟨s', ?_⟩
    rw [hs']
    congr 2
    omega

/-- Full trace of an underflowing first scan on a file that does contain the
delimiter somewhere past the scanned prefix: the loop walks below the start
of the file, drifts forward from offset 1, and returns boundary `1 - k`
where `k ≥ 2` is the offset of the file's first delimiter. -/
lemma first_scan_underflow_result (file : List Nat) (delim : Nat)
    (p k : Nat) (hp1 : 1 ≤ p) (hpL : p < file.length)
    (hnone : ∀ q : Nat, q ≤ p → file[q]? ≠ some delim)
    (hkdel : file[k]? = some delim) (hkfirst : ∀ i : Nat, i < k → file[i]? ≠ some delim) :
    2 ≤ k ∧ ∃ s', scanLoop file delim (scanFuel file (p : Int)) (p : Int) ⟨0, 0⟩
        = some (1 - (k : Int), s') := by
  have hkL : k < file.length := (List.getElem?_eq_some.mp hkdel).1
  have hkp : p < k := by
    by_contra h
    exact hnone k (by omega) hkdel
  refine ⟨by omega, ?_⟩
  have hL : 0 < file.length := by omega
  have hfuel : scanFuel file (p : Int)
      = ((file.length + 3 - k) + (k - 1 + 1)) + (p + 1) := by
    unfold scanFuel
    rw [Int.toNat_natCast]
    omega
  rw [hfuel, scanLoop_phase1 file delim hL p _ _ hpL hnone]
  obtain ⟨s', hs'⟩ := scanLoop_phase2 file delim (k - 1) 1 (file.length + 3 - k)
    (file.get ⟨0, hL⟩) le_rfl (by omega)
    (fun i h1 h2 => hkfirst i (by omega)) (by convert hkdel using 2; omega)
  have h1k : (1 + (k - 1) : Nat) = k := by omega
  rw [h1k] at hs'
  rw [show (-1 : Int) = -((1 : Nat) : Int) by simp]
  exact ⟨s', hs'⟩

/-- C6 amended: whenever the backward adjustment of the first boundary
underflows below the start of the file and the file contains at least one
record delimiter, `determineRanges` fails with a ConfigurationError (the
drifting reads eventually find the delimiter and the `End < 0` check fires);
when the file contains no delimiter at all the adjustment loop never breaks,
so `determineRanges` hangs and returns nothing — see `C6_cex`.  Only the
first boundary's adjustment can underflow: every later boundary starts just
past a delimiter, which stops its backward scan. -/
theorem C6_amended (file : List Nat) (n : Int) (hn : 2 ≤ n)
    (hunder : firstScanUnderflows file n measurementDelim)
    (hdel : measurementDelim ∈ file) :
    isConfigErr (determineRanges file n measurementDelim) := by
  unfold determineRanges
  rw [if_neg (by omega), if_neg (by omega)]
  by_cases ha0 : (file.length : Int) / n = 0
  · rw [if_pos ha0]
    exact ⟨_, rfl⟩
  · rw [if_neg ha0]
    have hnn : (0 : Int) ≤ (file.length : Int) / n :=
      Int.ediv_nonneg (by positivity) (by omega)
    have hcast : (file.length : Int) / n = ((file.length / n.toNat : Nat) : Int) := by
      have hn' : n = ((n.toNat : Nat) : Int) := by omega
      rw [hn']
      exact_mod_cast rfl
    set p : Nat := file.length / n.toNat with hpdef
    have hap : (file.length : Int) / n = (p : Int) := hcast
    have hp1 : 1 ≤ p := by omega
    have hpL : p < file.length := by
      have h2 : file.length / n.toNat ≤ file.length / 2 :=
        Nat.div_le_div_left (by omega) (by omega)
      have h3 : file.length / 2 < file.length := Nat.div_lt_self (by omega) (by omega)
      omega
    have htake : (((file.length : Int) / n).toNat + 1) = p + 1 := by
      rw [hap, Int.toNat_natCast]
    have hunder' : ∀ c ∈ file.take (p + 1), ¬ c = measurementDelim := by
      intro c hc
      have hall : (file.take (p + 1)).all (fun c => !(c == measurementDelim)) = true := by
        unfold firstScanUnderflows at hunder
        rw [htake] at hunder
        exact hunder
      have := List.all_eq_true.mp hall c hc
      simpa using this
    have hnone : ∀ q : Nat, q ≤ p → file[q]? ≠ some measurementDelim := by
      intro q hq hcontra
      have h2 : (file.take (p + 1))[q]? = some measurementDelim := by
        rw [List.getElem?_take, if_pos (by omega)]
        exact hcontra
      exact hunder' _ (List.getElem?_mem h2) rfl
    have hex : ∃ i : Nat, file[i]? = some measurementDelim := by
      obtain ⟨i, hi, hgi⟩ := List.mem_iff_getElem.mp hdel
      exact ⟨i, by rw [List.getElem?_eq_getElem hi, hgi]⟩
    classical
    let k := Nat.find hex
    obtain ⟨hk2, s', hscan⟩ :=
      first_scan_underflow_result file measurementDelim p k hp1 hpL hnone
        (Nat.find_spec hex) (fun i hik => Nat.find_min hex hik)
    have hneg : 1 - (k : Int) < 0 := by omega
    rw [hap]
    simp only [hscan, if_pos hneg]
    exact ⟨_, rfl⟩

theorem C6_amended_witness :
    (2 : Int) ≤ 2 ∧ firstScanUnderflows [97, 98, 99, 100, 101, 10] 2 10 ∧
      (10 : Nat) ∈ [97, 98, 99, 100, 101, 10] ∧
      isConfigErr (determineRanges [97, 98, 99, 100, 101, 10] 2 10) :=
  ⟨by decide, by decide, by decide,
    C6_amended [97, 98, 99, 100, 101, 10] 2 (by decide) (by decide) (by decide)⟩

/-! ### The worker's emissions -/

lemma processLines_cons (line : List Nat) (rest : List (List Nat))
    (m : ReadingsMap) (sent : List AggResult) :
    processLines (line :: rest) m sent =
      match scanStation line with
      | none => none
      | some pos =>
        match parseMeasurement (line.drop (pos + 1)) with
        | none =>
          processLines rest (updateReading m (line.take pos) 0)
            (sent ++ [.err (line.drop (pos + 1))])
        | some v => processLines rest (updateReading m (line.take pos) v) sent := rfl

/-- Whatever a worker sends: first one error result per unparseable record in
order, then exactly one success result carrying the final mapping. -/
lemma processLines_shape :
    ∀ (lines : List (List Nat)) (m : ReadingsMap) (sent es : List AggResult),
      processLines lines m sent = some es →
      ∃ final, es = sent ++ badResults lines ++ [.ok final] := by
  intro lines
  induction lines with
  | nil =>
    intro m sent es h
    refine ⟨m, ?_⟩
    simp only [processLines, Option.some.injEq] at h
    simp [badResults, ← h]
  | cons line rest ih =>
    intro m sent es h
    rw [processLines_cons] at h
    cases hscan : scanStation line with
    | none => rw [hscan] at h; exact absurd h (by simp)
    | some pos =>
      simp only [hscan] at h
      cases hparse : parseMeasurement (line.drop (pos + 1)) with
      | none =>
        simp only [hparse] at h
        obtain ⟨f, hf⟩ := ih _ _ _ h
        refine ⟨f, ?_⟩
        rw [hf]
        simp [badResults, List.filterMap_cons, hscan, hparse]
      | some v =>
        simp only [hparse] at h
        obtain ⟨f, hf⟩ := ih _ _ _ h
        refine ⟨f, ?_⟩
        rw [hf]
        simp [badResults, List.filterMap_cons, hscan, hparse]

/-- C2 amended: a task that completes without panicking produces one
ParseError result per record whose measurement fails to parse — sent at the
moment the failure is seen, after which the task keeps aggregating the rest
of its chunk, recording the failed record with the value 0 that `ParseFloat`
returned — followed by exactly one final success result; so it produces
`1 + (number of failed parses)` PartialResults, not exactly one, and does
not terminate on a parse failure. -/
theorem C2_amended (file : List Nat) (r : Range) (maxTok : Nat) (es : List AggResult)
    (h : taskEmits file r maxTok = some es) :
    ∃ m, es = badResults (splitLinesGo maxTok (chunkBytes file r)).1 ++ [.ok m] ∧
      es.length = (badResults (splitLinesGo maxTok (chunkBytes file r)).1).length + 1 := by
  obtain ⟨m, hm⟩ := processLines_shape _ _ _ _ h
  refine ⟨m, by simpa using hm, by rw [hm]; simp⟩

theorem C2_amended_witness :
    ∃ m, [AggResult.err [120],
          AggResult.ok [([97], ⟨0, 0, 0, 1⟩), ([98], ⟨1, 1, 1, 1⟩)]]
        = badResults (splitLinesGo 100 (chunkBytes [97, 59, 120, 10, 98, 59, 49, 10] ⟨0, 8⟩)).1
            ++ [.ok m] ∧
      ([AggResult.err [120],
        AggResult.ok [([97], ⟨0, 0, 0, 1⟩), ([98], ⟨1, 1, 1, 1⟩)]]).length
        = (badResults (splitLinesGo 100 (chunkBytes [97, 59, 120, 10, 98, 59, 49, 10] ⟨0, 8⟩)).1).length
            + 1 :=
  C2_amended [97, 59, 120, 10, 98, 59, 49, 10] ⟨0, 8⟩ 100 _ (by decide)

/-! ### The worker's local mapping -/

lemma lookupR_updateReading (m : ReadingsMap) (k k' : Key) (v : ℚ) :
    lookupR (updateReading m k v) k' =
      if k' = k then
        match lookupR m k with
        | none => some (initM v)
        | some st => some (addM st v)
      else lookupR m k' := by
  induction m with
  | nil =>
    by_cases h : k' = k
    · subst h; simp [updateReading, lookupR]
    · have h' : ¬ k = k' := fun hc => h hc.symm
      simp [updateReading, lookupR, h, h']
  | cons e rest ih =>
    obtain ⟨k0, st⟩ := e
    by_cases h0 : k0 = k
    · subst h0
      by_cases h1 : k' = k0
      · subst h1; simp [updateReading, lookupR]
      · have h1' : ¬ k0 = k' := fun hc => h1 hc.symm
        simp [updateReading, lookupR, h1, h1']
    · by_cases h1 : k0 = k'
      · subst h1
        have h0' : ¬ k0 = k := h0
        simp [updateReading, lookupR, h0']
      · simp [updateReading, lookupR, h0, h1, ih]

lemma lookupR_foldUpd (ps : List (Key × ℚ)) :
    ∀ (m : ReadingsMap) (k : Key),
      lookupR (ps.foldl (fun m p => updateReading m p.1 p.2) m) k =
        match lookupR m k with
        | none => statsO (valuesOf ps k)
        | some st => some ((valuesOf ps k).foldl addM st) := by
  induction ps with
  | nil =>
    intro m k
    cases h : lookupR m k <;> simp [valuesOf, statsO, h]
  | cons p rest ih =>
    intro m k
    rw [List.foldl_cons, ih]
    by_cases hk : p.1 = k
    · have hv : valuesOf (p :: rest) k = p.2 :: valuesOf rest k := by
        simp [valuesOf, List.filter_cons, hk]
      rw [hv, lookupR_updateReading]
      rw [if_pos (by simp [hk])]
      rw [show lookupR m p.1 = lookupR m k by rw [hk]]
      cases h : lookupR m k with
      | none =>
        cases hvals : valuesOf rest k with
        | nil => simp [statsO, initM, addM]
        | cons w ws => simp [statsO, initM, addM]
      | some st => simp [statsO]
    · have hv : valuesOf (p :: rest) k = valuesOf rest k := by
        simp [valuesOf, List.filter_cons, hk]
      rw [hv, lookupR_updateReading, if_neg (fun hc : k = p.1 => hk hc.symm)]

lemma lookupR_aggPairs (ps : List (Key × ℚ)) (k : Key) :
    lookupR (aggPairs ps) k = statsO (valuesOf ps k) := by
  unfold aggPairs
  rw [lookupR_foldUpd]
  rfl

lemma foldl_addM_inv :
    ∀ (vs : List ℚ) (st0 : Measurements), st0.Min ≤ st0.Max →
      (vs.foldl addM st0).Min ≤ (vs.foldl addM st0).Max ∧
        (vs.foldl addM st0).Count = st0.Count + vs.length := by
  intro vs
  induction vs with
  | nil => intro st0 h; exact ⟨h, rfl⟩
  | cons v rest ih =>
    intro st0 h
    rw [List.foldl_cons]
    have h' : (addM st0 v).Min ≤ (addM st0 v).Max :=
      le_trans (min_le_left _ _) (le_trans h (le_max_left _ _))
    obtain ⟨h1, h2⟩ := ih (addM st0 v) h'
    refine ⟨h1, ?_⟩
    rw [h2]
    simp [addM]
    omega

/-- C7 amended: within a worker's local mapping the first observation of a
key inserts `{min=v, max=v, sum=v, count=1}` and each later observation
updates the entry as `sum += v, min = min(min,v), max = max(max,v),
count += 1`; when no observed value is NaN — the domain of this exact-value
model — any entry of the mapping built from a list of observations has
`min ≤ max` and a count equal to the number of observations of its key.
After a NaN observation `min ≤ max` fails: see `C7_cex`. -/
theorem C7_local_map (ps : List (Key × ℚ)) (k : Key) (v : ℚ) (m : ReadingsMap) :
    (lookupR m k = none → lookupR (updateReading m k v) k = some ⟨v, v, v, 1⟩) ∧
      (∀ st, lookupR m k = some st →
        lookupR (updateReading m k v) k
          = some ⟨min st.Min v, max st.Max v, st.Sum + v, st.Count + 1⟩) ∧
      (∀ st, lookupR (aggPairs ps) k = some st →
        st.Min ≤ st.Max ∧ st.Count = (valuesOf ps k).length) := by
  refine ⟨?_, ?_, ?_⟩
  · intro h
    rw [lookupR_updateReading, if_pos rfl, h]
    rfl
  · intro st h
    rw [lookupR_updateReading, if_pos rfl, h]
    rfl
  · intro st h
    rw [lookupR_aggPairs] at h
    cases hv : valuesOf ps k with
    | nil => rw [hv] at h; exact absurd h (by simp [statsO])
    | cons w ws =>
      rw [hv] at h
      simp only [statsO, Option.some.injEq] at h
      subst h
      have := foldl_addM_inv ws (initM w) le_rfl
      refine ⟨this.1, ?_⟩
      rw [this.2]
      simp [initM]
      omega

theorem C7_witness :
    (lookupR [] [97] = none ∧ lookupR (updateReading [] [97] 5) [97] = some ⟨5, 5, 5, 1⟩) ∧
      (lookupR (aggPairs [([97], 5)]) [97] = some ⟨5, 5, 5, 1⟩ ∧
        (5 : ℚ) ≤ 5 ∧ (1 : Nat) = (valuesOf [([97], 5)] [97]).length) :=
  ⟨⟨rfl, (C7_local_map [([97], 5)] [97] 5 []).1 rfl⟩,
    ⟨by decide,
      ((C7_local_map [([97], 5)] [97] 5 []).2.2 ⟨5, 5, 5, 1⟩ (by decide)).1,
      ((C7_local_map [([97], 5)] [97] 5 []).2.2 ⟨5, 5, 5, 1⟩ (by decide)).2⟩⟩

/-- C7 counterexample: `strconv.ParseFloat` accepts the literal `NaN`, Go's
`min` and `max` propagate NaN and every ordered comparison with NaN is
false, so after the record `a;NaN` the worker's entry for `a` has
`Min = Max = Sum = NaN` and the claimed invariant `min ≤ max` fails; a later
genuine value does not restore it, since `min(NaN, v) = max(NaN, v) =
NaN`. -/
theorem C7_cex :
    scanStation [97, 59, 78, 97, 78] = some 1 ∧
      parseMeasurementF ([97, 59, 78, 97, 78].drop 2) = some FV.nan ∧
      updateReadingF [] [97] FV.nan = [([97], ⟨FV.nan, FV.nan, FV.nan, 1⟩)] ∧
      fle FV.nan FV.nan = false ∧
      addMF ⟨FV.nan, FV.nan, FV.nan, 1⟩ (FV.val 5) = ⟨FV.nan, FV.nan, FV.nan, 2⟩ := by
  decide

/-! ### The merge combination -/

lemma combineM_comm (a b : Measurements) : combineM a b = combineM b a := by
  simp [combineM, min_comm, max_comm, add_comm, Nat.add_comm]

lemma combineM_assoc (a b c : Measurements) :
    combineM (combineM a b) c = combineM a (combineM b c) := by
  simp [combineM, min_assoc, max_assoc, add_assoc, Nat.add_assoc]

lemma combineO_comm (a b : Option Measurements) : combineO a b = combineO b a := by
  cases a <;> cases b <;> simp [combineO, combineM_comm]

lemma combineO_assoc (a b c : Option Measurements) :
    combineO (combineO a b) c = combineO a (combineO b c) := by
  cases a <;> cases b <;> cases c <;> simp [combineO, combineM_assoc]

lemma lookupR_none_of_not_mem (m : ReadingsMap) (k : Key) (h : k ∉ keysOf m) :
    lookupR m k = none := by
  induction m with
  | nil => rfl
  | cons e rest ih =>
    simp only [keysOf, List.map_cons, List.mem_cons, not_or] at h
    rw [show lookupR (e :: rest) k = if e.1 = k then some e.2 else lookupR rest k from rfl]
    rw [if_neg (fun hc => h.1 hc.symm)]
    exact ih (by simpa [keysOf] using h.2)

lemma lookupR_mergeOne (acc : ReadingsMap) (e : Key × Measurements) (k : Key) :
    lookupR (mergeOne acc e) k =
      if e.1 = k then
        match lookupR acc k with
        | none => some e.2
        | some st => some (combineM st e.2)
      else lookupR acc k := by
  obtain ⟨ke, ste⟩ := e
  induction acc with
  | nil =>
    by_cases h : ke = k
    · subst h; simp [mergeOne, lookupR]
    · simp [mergeOne, lookupR, h]
  | cons a rest ih =>
    obtain ⟨k0, st0⟩ := a
    by_cases h0 : k0 = ke
    · subst h0
      by_cases h1 : k0 = k
      · subst h1
        simp [mergeOne, lookupR]
      · simp [mergeOne, lookupR, h1]
    · by_cases h1 : k0 = k
      · subst h1
        have h2 : ¬ ke = k0 := fun hc => h0 hc.symm
        simp [mergeOne, lookupR, h0, h2]
      · simp [mergeOne, lookupR, h0, h1, ih]

lemma lookupR_cons (a : Key × Measurements) (rest : ReadingsMap) (k : Key) :
    lookupR (a :: rest) k = if a.1 = k then some a.2 else lookupR rest k := by
  obtain ⟨k0, st0⟩ := a
  rfl

lemma lookupR_mergeMaps (m : ReadingsMap) :
    ∀ (acc : ReadingsMap) (k : Key), NodupKeys m →
      lookupR (mergeMaps acc m) k = combineO (lookupR acc k) (lookupR m k) := by
  induction m with
  | nil =>
    intro acc k _
    cases h : lookupR acc k <;> simp [mergeMaps, combineO, lookupR, h]
  | cons e rest ih =>
    intro acc k hnd
    have hnd2 : e.1 ∉ keysOf rest ∧ (keysOf rest).Nodup :=
      List.nodup_cons.mp (by simpa [NodupKeys, keysOf] using hnd)
    rw [show mergeMaps acc (e :: rest) = mergeMaps (mergeOne acc e) rest from rfl]
    rw [ih _ _ hnd2.2, lookupR_mergeOne, lookupR_cons]
    by_cases hek : e.1 = k
    · have hrest : lookupR rest k = none :=
        lookupR_none_of_not_mem rest k (hek ▸ hnd2.1)
      rw [if_pos hek, if_pos hek, hrest]
      cases hacc : lookupR acc k <;> simp [combineO]
    · rw [if_neg hek, if_neg hek]

lemma lookupR_foldMerge (ms : List ReadingsMap) :
    ∀ (acc : ReadingsMap) (k : Key), (∀ m ∈ ms, NodupKeys m) →
      lookupR (ms.foldl mergeMaps acc) k
        = (ms.map fun m => lookupR m k).foldl combineO (lookupR acc k) := by
  induction ms with
  | nil => intro acc k _; simp
  | cons m rest ih =>
    intro acc k hnd
    rw [List.foldl_cons, List.map_cons, List.foldl_cons]
    rw [ih _ _ fun x hx => hnd x (List.mem_cons_of_mem _ hx)]
    rw [lookupR_mergeMaps m acc k (hnd m (List.mem_cons_self _ _))]

/-- C4 amended: over exact values the per-key combination applied by the
merger is associative and commutative, and consequently merging a collection
of worker mappings in any arrival order yields an identical final mapping
(same lookup result for every key).  Under the program's binary32 `Sum`
addition associativity fails and the final mapping can depend on arrival
order: see `C4_cex`. -/
theorem C4_merge_comm_assoc :
    (∀ a b, combineM a b = combineM b a) ∧
      (∀ a b c, combineM (combineM a b) c = combineM a (combineM b c)) ∧
      ∀ (ms ms' : List ReadingsMap), (∀ m ∈ ms, NodupKeys m) → ms.Perm ms' →
        ∀ k, lookupR (foldMergeMaps ms) k = lookupR (foldMergeMaps ms') k := by
  refine ⟨combineM_comm, combineM_assoc, ?_⟩
  intro ms ms' hnd hperm k
  unfold foldMergeMaps
  rw [lookupR_foldMerge ms [] k hnd,
    lookupR_foldMerge ms' [] k fun m hm => hnd m (hperm.symm.subset hm)]
  haveI : RightCommutative combineO :=
    ⟨fun b a a' => by rw [combineO_assoc, combineO_assoc, combineO_comm a a']⟩
  exact (hperm.map fun m => lookupR m k).foldl_eq _

theorem C4_witness :
    (∀ m ∈ [[([97], Measurements.mk 1 2 3 4)], [([98], Measurements.mk 5 6 7 8)]], NodupKeys m) ∧
      List.Perm [[([97], Measurements.mk 1 2 3 4)], [([98], Measurements.mk 5 6 7 8)]]
        [[([98], Measurements.mk 5 6 7 8)], [([97], Measurements.mk 1 2 3 4)]] ∧
      lookupR (foldMergeMaps [[([97], Measurements.mk 1 2 3 4)], [([98], Measurements.mk 5 6 7 8)]]) [97]
        = lookupR (foldMergeMaps [[([98], Measurements.mk 5 6 7 8)], [([97], Measurements.mk 1 2 3 4)]]) [97] :=
  ⟨by decide, by decide,
    C4_merge_comm_assoc.2.2 _ _ (by decide) (by decide) [97]⟩

/-- C4 counterexample under the program's binary32 `Sum`: three worker
results for the key `a` — the sums 2^24, 1 and 1, each produced by
`taskSums` on a real chunk — merged in two arrival orders that are
permutations of one another yield different final sums (16777216 against
16777218), because binary32 addition is not associative: `(2^24 + 1) + 1`
rounds twice to `2^24` while `2^24 + (1 + 1)` is exact.  Arrival-order
independence of the merge holds only for the exact-value model. -/
theorem C4_cex :
    taskSums 65536 [97, 59, 49, 54, 55, 55, 55, 50, 49, 54, 10] = some [([97], 16777216)] ∧
      taskSums 65536 [97, 59, 48, 49, 10] = some [([97], 1)] ∧
      List.Perm [[([97], (1 : Nat))], [([97], 1)], [([97], 16777216)]]
        [[([97], (16777216 : Nat))], [([97], 1)], [([97], 1)]] ∧
      [[([97], (16777216 : Nat))], [([97], 1)], [([97], 1)]].foldl mergeSums []
        = [([97], 16777216)] ∧
      [[([97], (1 : Nat))], [([97], 1)], [([97], 16777216)]].foldl mergeSums []
        = [([97], 16777218)] ∧
      (16777216 : Nat) ≠ 16777218 := by
  decide

/-! ### The range chain built by determineRanges -/

lemma scanLoop_ub (file : List Nat) (delim : Nat) :
    ∀ (fuel : Nat) (p e : Int) (s s' : ScanSt),
      scanLoop file delim fuel p s = some (e, s') → e ≤ p + 1 := by
  intro fuel
  induction fuel with
  | zero => intro p e s s' h; exact absurd h (by simp [scanLoop])
  | succ n ih =>
    intro p e s s' h
    rw [scanLoop_succ] at h
    by_cases hb : (seekRead file p s).b = delim
    · rw [if_pos hb] at h
      have : p + 1 = e := congrArg Prod.fst (Option.some.inj h)
      omega
    · rw [if_neg hb] at h
      have := ih _ _ _ _ h
      omega

/-- Arithmetic of the initial chunk size for `n ≥ 2` workers: it is at least
one byte (when nonzero) and strictly inside the file. -/
lemma approxSize_facts (file : List Nat) (n : Int) (hn : 2 ≤ n)
    (ha0 : ¬ (file.length : Int) / n = 0) :
    (file.length : Int) / n = (((file.length : Int) / n).toNat : Int) ∧
      1 ≤ ((file.length : Int) / n).toNat ∧
      ((file.length : Int) / n).toNat < file.length := by
  have hnn : (0 : Int) ≤ (file.length : Int) / n :=
    Int.ediv_nonneg (by positivity) (by omega)
  have hcast : (file.length : Int) / n = ((file.length / n.toNat : Nat) : Int) := by
    have hn' : n = ((n.toNat : Nat) : Int) := by omega
    rw [hn']
    exact_mod_cast rfl
  have hp1 : 1 ≤ file.length / n.toNat := by
    by_contra hc
    apply ha0
    rw [hcast]
    omega
  have hpL : file.length / n.toNat < file.length := by
    have h2 : file.length / n.toNat ≤ file.length / 2 :=
      Nat.div_le_div_left (by omega) (by omega)
    have h3 : file.length / 2 < file.length := Nat.div_lt_self (by omega) (by omega)
    omega
  refine ⟨by omega, by omega, by omega⟩

/-- A successful first adjustment that passed the `End < 0` check ended at a
boundary of at least 1: had it underflowed it would have ended strictly
negative (or spun forever). -/
lemma first_scan_ge_one (file : List Nat) (e0 : Int) (s0 : ScanSt) (p : Nat)
    (hp1 : 1 ≤ p) (hpL : p < file.length)
    (hscan : scanLoop file measurementDelim (scanFuel file (p : Int)) (p : Int) ⟨0, 0⟩
        = some (e0, s0))
    (he0 : ¬ e0 < 0) : 1 ≤ e0 := by
  by_cases hq : ∃ q : Nat, q ≤ p ∧ file[q]? = some measurementDelim
  · obtain ⟨q, hqp, hqdel⟩ := hq
    have := scanLoop_lb file measurementDelim _ _ _ _ _ q hscan (by exact_mod_cast hqp) hqdel
    omega
  · push_neg at hq
    by_cases hdel : measurementDelim ∈ file
    · have hex : ∃ i : Nat, file[i]? = some measurementDelim := by
        obtain ⟨i, hi, hgi⟩ := List.mem_iff_getElem.mp hdel
        exact ⟨i, by rw [List.getElem?_eq_getElem hi, hgi]⟩
      classical
      obtain ⟨hk2, s', hscan'⟩ :=
        first_scan_underflow_result file measurementDelim p (Nat.find hex) hp1 hpL
          (fun q hqle => hq q hqle) (Nat.find_spec hex) (fun i hik => Nat.find_min hex hik)
      rw [hscan'] at hscan
      have : 1 - ((Nat.find hex : Nat) : Int) = e0 := congrArg Prod.fst (Option.some.inj hscan)
      omega
    · have := scanLoop_none_of_no_delim file measurementDelim hdel
        (scanFuel file (p : Int)) (p : Int) ⟨0, 0⟩ (by simp [measurementDelim])
      rw [this] at hscan
      exact absurd hscan (by simp)

/-- The middle-range loop preserves the boundary invariant: starting from a
boundary inside the file that sits one byte past a delimiter, with the
buffer holding the delimiter, and assuming every produced end stays inside
the file, it builds a well-formed chain of exactly `k` ranges whose interior
ends all sit one byte past a delimiter. -/
lemma buildMiddles_chain (file : List Nat) (delim : Nat) (approx : Int) (ha : 1 ≤ approx) :
    ∀ (k : Nat) (e : Int) (s : ScanSt) (mids : List Range) (eL : Int) (sF : ScanSt),
      buildMiddles file delim approx k e s = some (mids, eL, sF) →
      1 ≤ e → e ≤ (file.length : Int) → delimAt file delim e → s.b = delim →
      (∀ r ∈ mids, r.End ≤ (file.length : Int)) →
      ChainOK file delim e mids eL ∧ mids.length = k ∧
        1 ≤ eL ∧ eL ≤ (file.length : Int) ∧ delimAt file delim eL := by
  intro k
  induction k with
  | zero =>
    intro e s mids eL sF h h1 h2 h3 h4 h5
    simp only [buildMiddles, Option.some.injEq, Prod.mk.injEq] at h
    obtain ⟨hm, he, hs⟩ := h
    subst hm
    subst he
    exact ⟨rfl, rfl, h1, h2, h3⟩
  | succ k ih =>
    intro e s mids eL sF h h1 h2 h3 h4 h5
    rw [show buildMiddles file delim approx (k + 1) e s =
        match scanLoop file delim (scanFuel file (e + approx)) (e + approx) s with
        | none => none
        | some (e1, s1) =>
          match buildMiddles file delim approx k e1 s1 with
          | none => none
          | some (rs, eLast, sF) => some (⟨e, e1⟩ :: rs, eLast, sF) from rfl] at h
    cases hscan : scanLoop file delim (scanFuel file (e + approx)) (e + approx) s with
    | none => rw [hscan] at h; exact absurd h (by simp)
    | some p1 =>
      obtain ⟨e1, s1⟩ := p1
      simp only [hscan] at h
      cases hbm : buildMiddles file delim approx k e1 s1 with
      | none => rw [hbm] at h; exact absurd h (by simp)
      | some t =>
        obtain ⟨mids', eL', sF'⟩ := t
        simp only [hbm, Option.some.injEq, Prod.mk.injEq] at h
        obtain ⟨hm, he, hs⟩ := h
        subst hm
        subst he
        obtain ⟨hdge1, hdget⟩ := h3
        have hq0 : ((e - 1).toNat : Int) = e - 1 := by omega
        have he1ge : e ≤ e1 := by
          have := scanLoop_lb file delim _ _ _ _ _ (e - 1).toNat hscan
            (by omega) hdget
          omega
        have hpost := scanLoop_post file delim _ _ _ _ _ hscan
        have he1le : e1 ≤ (file.length : Int) := h5 ⟨e, e1⟩ (by simp)
        have hd1 : delimAt file delim e1 := by
          rcases hpost.2 with hb1 | hb2 | hb3
          · omega
          · omega
          · exact ⟨hb3.1, hb3.2.2⟩
        obtain ⟨hch, hlen, heL1, heL2, heL3⟩ := ih e1 s1 mids' eL' sF' hbm (le_trans h1 he1ge)
          he1le hd1 hpost.1 (fun r hr => h5 r (by simp [hr]))
        refine ⟨⟨rfl, he1ge, show (1 : Int) ≤ e1 by omega, fun _ => hd1, hch⟩, by simp [hlen], heL1, heL2, heL3⟩

lemma chainCov_le : ∀ (rs : List Range) (a b : Int), ChainCov a rs b → a ≤ b := by
  intro rs
  induction rs with
  | nil => intro a b h; simp only [ChainCov] at h; omega
  | cons r rest ih =>
    intro a b h
    obtain ⟨h1, h2, h3⟩ := h
    have := ih _ _ h3
    omega

lemma chainCov_covered :
    ∀ (rs : List Range) (a b : Int), ChainCov a rs b →
      ∀ x : Int, coveredBy rs x ↔ a ≤ x ∧ x < b := by
  intro rs
  induction rs with
  | nil =>
    intro a b h x
    simp only [ChainCov] at h
    simp [coveredBy]
    omega
  | cons r rest ih =>
    intro a b h x
    obtain ⟨h1, h2, h3⟩ := h
    have hle := chainCov_le _ _ _ h3
    have hrest := ih _ _ h3 x
    simp only [coveredBy, List.mem_cons, inRange] at *
    constructor
    · rintro ⟨r', hr' | hr', hx1, hx2⟩
      · subst hr'; omega
      · have := hrest.mp ⟨r', hr', hx1, hx2⟩
        omega
    · intro hx
      by_cases hxe : x < r.End
      · exact ⟨r, Or.inl rfl, by omega, hxe⟩
      · obtain ⟨r', hr', hx1, hx2⟩ := hrest.mpr (by omega)
        exact ⟨r', Or.inr hr', hx1, hx2⟩

lemma chainCov_disjoint :
    ∀ (rs : List Range) (a b : Int), ChainCov a rs b → DisjointRanges rs := by
  intro rs
  induction rs with
  | nil => intro a b _; exact List.Pairwise.nil
  | cons r rest ih =>
    intro a b h
    obtain ⟨h1, h2, h3⟩ := h
    refine List.Pairwise.cons ?_ (ih _ _ h3)
    intro r' hr' x hx hx'
    have hcov := (chainCov_covered _ _ _ h3 x).mp ⟨r', hr', hx'⟩
    obtain ⟨_, hx2⟩ := hx
    omega

lemma chainCov_contiguous :
    ∀ (rs : List Range) (a b : Int), ChainCov a rs b → Contiguous rs := by
  intro rs
  induction rs with
  | nil => intro a b _; trivial
  | cons r rest ih =>
    intro a b h
    obtain ⟨h1, h2, h3⟩ := h
    cases rest with
    | nil => trivial
    | cons r' rest' =>
      obtain ⟨h1', h2', h3'⟩ := h3
      exact ⟨h1'.symm, ih _ _ ⟨h1', h2', h3'⟩⟩

lemma chainCov_begin_le_end :
    ∀ (rs : List Range) (a b : Int), ChainCov a rs b → ∀ r ∈ rs, r.Begin ≤ r.End := by
  intro rs
  induction rs with
  | nil => intro a b _ r hr; exact absurd hr (List.not_mem_nil _)
  | cons r0 rest ih =>
    intro a b h r hr
    obtain ⟨h1, h2, h3⟩ := h
    rcases List.mem_cons.mp hr with hr | hr
    · subst hr; omega
    · exact ih _ _ h3 r hr

lemma chainOK_to_cov (file : List Nat) (delim : Nat) :
    ∀ (mids : List Range) (e eL L : Int), ChainOK file delim e mids eL → eL ≤ L →
      ChainCov e (mids ++ [⟨eL, L⟩]) L := by
  intro mids
  induction mids with
  | nil =>
    intro e eL L h hle
    simp only [ChainOK] at h
    subst h
    exact ⟨rfl, hle, rfl⟩
  | cons r rest ih =>
    intro e eL L h hle
    obtain ⟨h1, h2, _, _, h5⟩ := h
    exact ⟨h1, h2, ih _ _ _ h5 hle⟩

lemma chainOK_ends (file : List Nat) (delim : Nat) :
    ∀ (mids : List Range) (e eL : Int), ChainOK file delim e mids eL →
      ∀ r ∈ mids, 1 ≤ r.End ∧ (r.End ≤ (file.length : Int) → delimAt file delim r.End) := by
  intro mids
  induction mids with
  | nil => intro e eL _ r hr; exact absurd hr (List.not_mem_nil _)
  | cons r0 rest ih =>
    intro e eL h r hr
    obtain ⟨_, _, h3, h4, h5⟩ := h
    rcases List.mem_cons.mp hr with hr | hr
    · subst hr; exact ⟨h3, h4⟩
    · exact ih _ _ h5 r hr

/-- The middle-range loop without any in-file assumption on the produced
ends: once a boundary drifts past end-of-file, each further scan breaks
immediately on the stale buffer byte, so the chain invariant still holds
with the delimiter fact conditional on the end being inside the file. -/
lemma buildMiddles_chain_drift (file : List Nat) (delim : Nat) (approx : Int) (ha : 1 ≤ approx) :
    ∀ (k : Nat) (e : Int) (s : ScanSt) (mids : List Range) (eL : Int) (sF : ScanSt),
      buildMiddles file delim approx k e s = some (mids, eL, sF) →
      1 ≤ e → (e ≤ (file.length : Int) → delimAt file delim e) → s.b = delim →
      ChainOK file delim e mids eL ∧ mids.length = k ∧
        1 ≤ eL ∧ (eL ≤ (file.length : Int) → delimAt file delim eL) := by
  intro k
  induction k with
  | zero =>
    intro e s mids eL sF h h1 h2 h4
    simp only [buildMiddles, Option.some.injEq, Prod.mk.injEq] at h
    obtain ⟨hm, he, hs⟩ := h
    subst hm
    subst he
    exact ⟨rfl, rfl, h1, h2⟩
  | succ k ih =>
    intro e s mids eL sF h h1 h2 h4
    rw [show buildMiddles file delim approx (k + 1) e s =
        match scanLoop file delim (scanFuel file (e + approx)) (e + approx) s with
        | none => none
        | some (e1, s1) =>
          match buildMiddles file delim approx k e1 s1 with
          | none => none
          | some (rs, eLast, sF) => some (⟨e, e1⟩ :: rs, eLast, sF) from rfl] at h
    cases hscan : scanLoop file delim (scanFuel file (e + approx)) (e + approx) s with
    | none => rw [hscan] at h; exact absurd h (by simp)
    | some p1 =>
      obtain ⟨e1, s1⟩ := p1
      simp only [hscan] at h
      cases hbm : buildMiddles file delim approx k e1 s1 with
      | none => rw [hbm] at h; exact absurd h (by simp)
      | some t =>
        obtain ⟨mids', eL', sF'⟩ := t
        simp only [hbm, Option.some.injEq, Prod.mk.injEq] at h
        obtain ⟨hm, he, hs⟩ := h
        subst hm
        subst he
        by_cases heL : e ≤ (file.length : Int)
        · obtain ⟨hdge1, hdget⟩ := h2 heL
          have he1ge : e ≤ e1 := by
            have := scanLoop_lb file delim _ _ _ _ _ (e - 1).toNat hscan (by omega) hdget
            omega
          have hpost := scanLoop_post file delim _ _ _ _ _ hscan
          have hd1 : e1 ≤ (file.length : Int) → delimAt file delim e1 := by
            intro hle
            rcases hpost.2 with hb1 | hb2 | hb3
            · omega
            · omega
            · exact ⟨hb3.1, hb3.2.2⟩
          obtain ⟨hch, hlen, hr1, hr2⟩ := ih e1 s1 mids' eL' sF' hbm (by omega) hd1 hpost.1
          exact ⟨⟨rfl, he1ge, show (1 : Int) ≤ e1 by omega, hd1, hch⟩,
            by simp [hlen], hr1, hr2⟩
        · push_neg at heL
          have hEOF := scanLoop_eof file delim (scanFuel file (e + approx) - 1) (e + approx) s
            (by omega) (by omega) h4
          rw [show scanFuel file (e + approx) - 1 + 1 = scanFuel file (e + approx) by
            unfold scanFuel
            omega] at hEOF
          rw [hEOF] at hscan
          have hscan' := Option.some.inj hscan
          have he1 : e + approx + 1 = e1 := congrArg Prod.fst hscan'
          have hs1 : (⟨(e + approx).toNat, s.b⟩ : ScanSt) = s1 := congrArg Prod.snd hscan'
          have hs1b : s1.b = delim := by
            rw [← hs1]
            exact h4
          have hd1 : e1 ≤ (file.length : Int) → delimAt file delim e1 :=
            fun hle => absurd hle (by omega)
          obtain ⟨hch, hlen, hr1, hr2⟩ := ih e1 s1 mids' eL' sF' hbm (by omega) hd1 hs1b
          exact ⟨⟨rfl, show e ≤ e1 by omega, show (1 : Int) ≤ e1 by omega, hd1, hch⟩,
            by simp [hlen], hr1, hr2⟩

/-- A chain satisfying `ChainOK` is contiguous once closed off with any
range ending at its start boundary in front and any range starting at its
end boundary behind — this needs none of the in-file conditions, so it holds
for drifted chains too. -/
lemma chainOK_contiguous (file : List Nat) (delim : Nat) (b : Int) :
    ∀ (mids : List Range) (a e eL : Int), ChainOK file delim e mids eL →
      Contiguous (⟨a, e⟩ :: (mids ++ [⟨eL, b⟩])) := by
  intro mids
  induction mids with
  | nil =>
    intro a e eL h
    simp only [ChainOK] at h
    subst h
    exact ⟨rfl, trivial⟩
  | cons r rest ih =>
    intro a e eL h
    obtain ⟨h1, _, _, _, h5⟩ := h
    exact ⟨h1.symm, ih r.Begin r.End eL h5⟩

/-- C1 amended: for a file of length `L ≥ 1` and a worker count `N ≥ 1` for
which `determineRanges` returns ranges, it returns — unconditionally —
exactly `N` contiguous ranges, the first beginning at 0 and the last ending
at `L`; provided additionally that every returned range end lies within the
file (`End ≤ L` — which the code does not guarantee, see `C1_cex`), no
range is inverted, every interior boundary points one byte past a record
delimiter, the ranges are pairwise disjoint and their union is exactly
`[0, L)`. -/
theorem C1_amended (file : List Nat) (n : Int) (rs : List Range)
    (hL : 1 ≤ file.length) (hn : 1 ≤ n)
    (hok : determineRanges file n measurementDelim = some (.ok rs)) :
    ((rs.length : Int) = n ∧
      (rs.map Range.Begin).head? = some 0 ∧
      (rs.map Range.End).getLast? = some ((file.length : Int)) ∧
      Contiguous rs) ∧
      ((∀ r ∈ rs, r.End ≤ (file.length : Int)) →
        (∀ r ∈ rs, r.Begin ≤ r.End) ∧
        (∀ r ∈ rs.dropLast, delimAt file measurementDelim r.End) ∧
        (∀ x : Int, coveredBy rs x ↔ 0 ≤ x ∧ x < (file.length : Int)) ∧
        DisjointRanges rs) := by
  simp only [determineRanges] at hok
  by_cases hn1 : n = 1
  · rw [if_pos hn1] at hok
    simp only [Option.some.injEq, Except.ok.injEq] at hok
    subst hok
    refine ⟨⟨by simp [hn1], by simp, by simp, trivial⟩, fun hin => ⟨?_, by simp, ?_, ?_⟩⟩
    · intro r hr
      rcases List.mem_singleton.mp hr with rfl
      show (0 : Int) ≤ (file.length : Int)
      positivity
    · intro x
      simp [coveredBy, inRange]
    · exact List.pairwise_singleton _ _
  · rw [if_neg hn1, if_neg (by omega : ¬ n = 0)] at hok
    by_cases ha0 : (file.length : Int) / n = 0
    · rw [if_pos ha0] at hok
      exact absurd hok (by simp)
    · rw [if_neg ha0] at hok
      obtain ⟨hcast, hp1, hpL⟩ := approxSize_facts file n (by omega) ha0
      cases hscan : scanLoop file measurementDelim
          (scanFuel file ((file.length : Int) / n)) ((file.length : Int) / n) ⟨0, 0⟩ with
      | none => rw [hscan] at hok; exact absurd hok (by simp)
      | some p0 =>
        obtain ⟨e0, s0⟩ := p0
        simp only [hscan] at hok
        by_cases he0 : e0 < 0
        · rw [if_pos he0] at hok
          exact absurd hok (by simp)
        · rw [if_neg he0] at hok
          cases hbm : buildMiddles file measurementDelim ((file.length : Int) / n)
              (n - 2).toNat e0 s0 with
          | none => rw [hbm] at hok; exact absurd hok (by simp)
          | some t =>
            obtain ⟨mids, eL, sF⟩ := t
            simp only [hbm, Option.some.injEq, Except.ok.injEq] at hok
            subst hok
            -- facts about the first boundary
            have hscan' : scanLoop file measurementDelim
                (scanFuel file ((((file.length : Int) / n).toNat : Nat) : Int))
                ((((file.length : Int) / n).toNat : Nat) : Int) ⟨0, 0⟩ = some (e0, s0) := by
              rw [← hcast]
              exact hscan
            have he01 : 1 ≤ e0 :=
              first_scan_ge_one file e0 s0 ((file.length : Int) / n).toNat hp1 hpL hscan' he0
            have hub := scanLoop_ub file measurementDelim _ _ _ _ _ hscan
            have he0L : e0 ≤ (file.length : Int) := by omega
            have hpost := scanLoop_post file measurementDelim _ _ _ _ _ hscan
            have hd0 : delimAt file measurementDelim e0 := by
              rcases hpost.2 with hb1 | hb2 | hb3
              · omega
              · omega
              · exact ⟨hb3.1, hb3.2.2⟩
            have ha1 : 1 ≤ (file.length : Int) / n := by omega
            obtain ⟨hchD, hlenD, _, _⟩ :=
              buildMiddles_chain_drift file measurementDelim _ ha1 _ e0 s0 mids eL sF hbm
                he01 (fun _ => hd0) hpost.1
            refine ⟨⟨?_, by simp, ?_, ?_⟩, fun hin => ?_⟩
            · simp only [List.length_cons, List.length_append, List.length_singleton,
                List.length_nil, hlenD]
              push_cast
              omega
            · rw [show (List.map Range.End
                    ((⟨0, e0⟩ : Range) :: (mids ++ [⟨eL, (file.length : Int)⟩])))
                  = (e0 :: List.map Range.End mids) ++ [(file.length : Int)] by simp]
              exact List.getLast?_concat _
            · exact chainOK_contiguous file measurementDelim (file.length : Int)
                mids 0 e0 eL hchD
            · obtain ⟨hch, hlen, heL1, heL2, heL3⟩ :=
                buildMiddles_chain file measurementDelim _ ha1 _ e0 s0 mids eL sF hbm
                  he01 he0L hd0 hpost.1
                  (fun r hr => hin r (by simp [hr]))
              have hcov : ChainCov 0 (⟨0, e0⟩ :: (mids ++ [⟨eL, (file.length : Int)⟩]))
                  (file.length : Int) :=
                ⟨rfl, show (0 : Int) ≤ e0 by omega,
                  chainOK_to_cov file measurementDelim mids e0 eL _ hch heL2⟩
              refine ⟨chainCov_begin_le_end _ _ _ hcov, ?_,
                chainCov_covered _ _ _ hcov, chainCov_disjoint _ _ _ hcov⟩
              intro r hr
              rw [show (⟨0, e0⟩ :: (mids ++ [⟨eL, (file.length : Int)⟩])).dropLast
                  = ⟨0, e0⟩ :: mids by
                rw [show (⟨0, e0⟩ : Range) :: (mids ++ [⟨eL, (file.length : Int)⟩])
                    = (⟨0, e0⟩ :: mids) ++ [⟨eL, (file.length : Int)⟩] by simp,
                  List.dropLast_concat]] at hr
              rcases List.mem_cons.mp hr with hr | hr
              · subst hr; exact hd0
              · obtain ⟨_, h2⟩ := chainOK_ends file measurementDelim mids e0 eL hch r hr
                exact h2 (hin r (by simp [hr]))

/-! ### The scanner's error flag -/

lemma splitLinesF_succ (maxTok f : Nat) (data : List Nat) :
    splitLinesF maxTok (f + 1) data =
      (match data.dropWhile (fun c => !(c == measurementDelim)) with
       | [] =>
         if (data.takeWhile (fun c => !(c == measurementDelim))).isEmpty then ([], false)
         else if (data.takeWhile (fun c => !(c == measurementDelim))).length ≤ maxTok then
           ([dropCR (data.takeWhile (fun c => !(c == measurementDelim)))], false)
         else ([], true)
       | _ :: rest =>
         if (data.takeWhile (fun c => !(c == measurementDelim))).length ≤ maxTok then
           (dropCR (data.takeWhile (fun c => !(c == measurementDelim)))
             :: (splitLinesF maxTok f rest).1, (splitLinesF maxTok f rest).2)
         else ([], true)) := rfl

lemma splitRawF_succ (f : Nat) (data : List Nat) :
    splitRawF (f + 1) data =
      (match data.dropWhile (fun c => !(c == measurementDelim)) with
       | [] =>
         if (data.takeWhile (fun c => !(c == measurementDelim))).isEmpty then []
         else [data.takeWhile (fun c => !(c == measurementDelim))]
       | _ :: rest => data.takeWhile (fun c => !(c == measurementDelim)) :: splitRawF f rest) := rfl

/-- The limited scanner yields exactly the raw records up to the first one
exceeding the token limit (carriage-return-stripped), and its error flag is
set exactly when some raw record exceeds the limit. -/
lemma splitLinesF_raw :
    ∀ (fuel maxTok : Nat) (data : List Nat), data.length < fuel →
      splitLinesF maxTok fuel data
        = (((splitRawF fuel data).takeWhile fun l => decide (l.length ≤ maxTok)).map dropCR,
           (splitRawF fuel data).any fun l => decide (maxTok < l.length)) := by
  intro fuel
  induction fuel with
  | zero => intro mt data h; omega
  | succ f ih =>
    intro mt data h
    cases hdrop : data.dropWhile (fun c => !(c == measurementDelim)) with
    | nil =>
      simp only [splitLinesF_succ, splitRawF_succ, hdrop]
      by_cases hemp : (data.takeWhile (fun c => !(c == measurementDelim))).isEmpty
      · simp [hemp]
      · by_cases hlen : (data.takeWhile (fun c => !(c == measurementDelim))).length ≤ mt
        · simp [hemp, hlen]
        · simp [hemp, hlen]
          omega
    | cons c rest =>
      have hrest : rest.length < f := by
        have h1 : (data.dropWhile (fun c => !(c == measurementDelim))).length ≤ data.length :=
          (List.dropWhile_sublist _).length_le
        rw [hdrop] at h1
        simp at h1
        omega
      simp only [splitLinesF_succ, splitRawF_succ, hdrop]
      by_cases hlen : (data.takeWhile (fun c => !(c == measurementDelim))).length ≤ mt
      · rw [if_pos hlen, ih mt rest hrest]
        simp [List.takeWhile_cons, hlen]
      · rw [if_neg hlen]
        simp [List.takeWhile_cons, hlen]
        omega

/-- C10: the worker never inspects the record reader's error.  If the chunk
contains a record longer than the scanner's maximum token size, scanning
stops early with the error flag set, yet the task behaves exactly as if the
chunk consisted only of the records before the first over-long one: its
emissions are computed from that prefix alone and, whenever the task
completes at all, its last emission is a success result — no error from the
reader stop is ever reported. -/
theorem C10_scanner_error_ignored (file : List Nat) (r : Range) (maxTok : Nat)
    (hlong : ∃ rec ∈ splitNLraw (chunkBytes file r), maxTok < rec.length) :
    (splitLinesGo maxTok (chunkBytes file r)).2 = true ∧
      (splitLinesGo maxTok (chunkBytes file r)).1
        = ((splitNLraw (chunkBytes file r)).takeWhile
            fun l => decide (l.length ≤ maxTok)).map dropCR ∧
      taskEmits file r maxTok
        = processLines
            (((splitNLraw (chunkBytes file r)).takeWhile
              fun l => decide (l.length ≤ maxTok)).map dropCR) [] [] ∧
      ∀ es, taskEmits file r maxTok = some es → ∃ m, es.getLast? = some (.ok m) := by
  have hch := splitLinesF_raw ((chunkBytes file r).length + 1) maxTok (chunkBytes file r)
    (by omega)
  have h2 : (splitLinesGo maxTok (chunkBytes file r)).2 = true := by
    unfold splitLinesGo
    rw [hch]
    obtain ⟨rec, hmem, hgt⟩ := hlong
    exact List.any_eq_true.mpr ⟨rec, hmem, by simpa using hgt⟩
  have h1 : (splitLinesGo maxTok (chunkBytes file r)).1
      = ((splitNLraw (chunkBytes file r)).takeWhile
          fun l => decide (l.length ≤ maxTok)).map dropCR := by
    unfold splitLinesGo
    rw [hch]
    rfl
  refine ⟨h2, h1, by unfold taskEmits; rw [h1], ?_⟩
  intro es hes
  obtain ⟨m, hm⟩ := processLines_shape _ _ _ _ hes
  refine ⟨m, ?_⟩
  rw [hm]
  simp

theorem C10_witness :
    (∃ rec ∈ splitNLraw (chunkBytes [97, 59, 49, 10, 98, 98, 98, 98, 98, 98, 59, 50, 10] ⟨0, 13⟩),
        4 < rec.length) ∧
      (splitLinesGo 4 (chunkBytes [97, 59, 49, 10, 98, 98, 98, 98, 98, 98, 59, 50, 10] ⟨0, 13⟩)).2
        = true ∧
      taskEmits [97, 59, 49, 10, 98, 98, 98, 98, 98, 98, 59, 50, 10] ⟨0, 13⟩ 4
        = some [.ok [([97], ⟨1, 1, 1, 1⟩)]] :=
  ⟨by decide,
    (C10_scanner_error_ignored [97, 59, 49, 10, 98, 98, 98, 98, 98, 98, 59, 50, 10] ⟨0, 13⟩ 4
      (by decide)).1,
    by decide⟩

/-! ### Well-formed records: parse facts and line structure -/

lemma parseCore_chars (t : List Nat) (q : ℚ) (h : parseCore t = some q) :
    (∀ c ∈ t, c = 46 ∨ isDigit c = true) ∧ t ≠ [] := by
  have hsplit : t.takeWhile isDigit ++ t.dropWhile isDigit = t :=
    List.takeWhile_append_dropWhile ..
  unfold parseCore at h
  cases hdrop : t.dropWhile isDigit with
  | nil =>
    simp only [hdrop] at h
    by_cases hemp : (t.takeWhile isDigit).isEmpty
    · rw [if_pos hemp] at h
      exact absurd h (by simp)
    · constructor
      · intro c hc
        rw [← hsplit, hdrop, List.append_nil] at hc
        exact Or.inr (List.mem_takeWhile_imp hc)
      · intro ht
        subst ht
        simp at hemp
  | cons d fr =>
    simp only [hdrop] at h
    have ht : t ≠ [] := by
      intro ht
      subst ht
      simp at hdrop
    by_cases hcond :
        (d == 46 && fr.all isDigit && !((t.takeWhile isDigit).isEmpty && fr.isEmpty)) = true
    · obtain ⟨h1, _⟩ := Bool.and_eq_true_iff.mp hcond
      obtain ⟨hd46, hfr⟩ := Bool.and_eq_true_iff.mp h1
      refine ⟨?_, ht⟩
      intro c hc
      rw [← hsplit, hdrop] at hc
      rcases List.mem_append.mp hc with hc | hc
      · exact Or.inr (List.mem_takeWhile_imp hc)
      · rcases List.mem_cons.mp hc with hc | hc
        · subst hc
          exact Or.inl (by simpa using hd46)
        · exact Or.inr (List.all_eq_true.mp hfr c hc)
    · rw [if_neg hcond] at h
      exact absurd h (by simp)

lemma parseMeasurement_chars (v : List Nat) (q : ℚ) (h : parseMeasurement v = some q) :
    (∀ c ∈ v, c = 45 ∨ c = 46 ∨ isDigit c = true) ∧ v ≠ [] := by
  cases v with
  | nil => exact absurd h (by simp [parseMeasurement])
  | cons c t =>
    rw [show parseMeasurement (c :: t)
        = if c = 45 then (parseCore t).map (fun q => -q) else parseCore (c :: t) from rfl] at h
    by_cases hc : c = 45
    · rw [if_pos hc] at h
      obtain ⟨q', hq', _⟩ := Option.map_eq_some'.mp h
      obtain ⟨hchars, _⟩ := parseCore_chars t q' hq'
      refine ⟨?_, by simp⟩
      intro x hx
      rcases List.mem_cons.mp hx with hx | hx
      · subst hx
        exact Or.inl hc
      · rcases hchars x hx with h' | h'
        · exact Or.inr (Or.inl h')
        · exact Or.inr (Or.inr h')
    · rw [if_neg hc] at h
      obtain ⟨hchars, _⟩ := parseCore_chars (c :: t) q h
      refine ⟨?_, by simp⟩
      intro x hx
      rcases hchars x hx with h' | h'
      · exact Or.inr (Or.inl h')
      · exact Or.inr (Or.inr h')

/-- A measurement field that parses contains no newline, is nonempty, and
does not end with a carriage return. -/
lemma parseMeasurement_clean (v : List Nat) (q : ℚ) (h : parseMeasurement v = some q) :
    measurementDelim ∉ v ∧ v.getLast? ≠ some 13 ∧ v ≠ [] := by
  obtain ⟨hchars, hne⟩ := parseMeasurement_chars v q h
  refine ⟨?_, ?_, hne⟩
  · intro hmem
    rcases hchars _ hmem with h' | h' | h'
    · exact absurd h' (by decide)
    · exact absurd h' (by decide)
    · exact absurd h' (by decide)
  · intro hlast
    have hm : (13 : Nat) ∈ v := List.mem_of_mem_getLast? hlast
    rcases hchars 13 hm with h' | h' | h'
    · exact absurd h' (by decide)
    · exact absurd h' (by decide)
    · exact absurd h' (by decide)

lemma takeWhile_all_append (p : Nat → Bool) :
    ∀ (l1 l2 : List Nat), (∀ c ∈ l1, p c = true) →
      (l1 ++ l2).takeWhile p = l1 ++ l2.takeWhile p ∧
        (l1 ++ l2).dropWhile p = l2.dropWhile p := by
  intro l1
  induction l1 with
  | nil => intro l2 _; exact ⟨rfl, rfl⟩
  | cons c cs ih =>
    intro l2 hall
    have hc : p c = true := hall c (List.mem_cons_self ..)
    obtain ⟨h1, h2⟩ := ih l2 fun x hx => hall x (List.mem_cons_of_mem _ hx)
    constructor
    · simp only [List.cons_append, List.takeWhile_cons, hc, if_true, h1]
    · simp only [List.cons_append, List.dropWhile_cons, hc, if_true, h2]

lemma lineOf_no_delim (maxTok : Nat) (r : RecordR) (h : WFRecord maxTok r) :
    ∀ c ∈ lineOf r, (!(c == measurementDelim)) = true := by
  obtain ⟨hk10, hk59, hparse, hlen⟩ := h
  obtain ⟨q, hq⟩ := Option.isSome_iff_exists.mp hparse
  have hclean := parseMeasurement_clean r.val q hq
  intro c hc
  unfold lineOf at hc
  simp only [Bool.not_eq_eq_eq_not, Bool.not_true, beq_eq_false_iff_ne, ne_eq]
  intro he
  subst he
  rcases List.mem_append.mp hc with hc | hc
  · exact hk10 hc
  · rcases List.mem_cons.mp hc with hc | hc
    · exact absurd hc (by decide)
    · exact hclean.1 hc

lemma dropCR_lineOf (maxTok : Nat) (r : RecordR) (h : WFRecord maxTok r) :
    dropCR (lineOf r) = lineOf r := by
  obtain ⟨hk10, hk59, hparse, hlen⟩ := h
  obtain ⟨q, hq⟩ := Option.isSome_iff_exists.mp hparse
  obtain ⟨h10, h13, hne⟩ := parseMeasurement_clean r.val q hq
  unfold dropCR
  rw [if_neg]
  unfold lineOf
  rw [List.getLast?_append]
  cases hvl : r.val.getLast? with
  | none => exact absurd (List.getLast?_eq_none_iff.mp hvl) hne
  | some a =>
    rw [List.getLast?_cons, hvl]
    intro hcontra
    apply h13
    rw [hvl]
    simpa using hcontra

lemma encodeFile_cons (r : RecordR) (rest : List RecordR) :
    encodeFile (r :: rest) = lineOf r ++ measurementDelim :: encodeFile rest := by
  unfold encodeFile encodeRecord lineOf
  simp

lemma lineOf_length (r : RecordR) : (lineOf r).length = r.key.length + r.val.length + 1 := by
  unfold lineOf
  simp
  omega

/-- The limited scanner turns a well-formed encoded file into exactly its
record tokens, with no error. -/
lemma splitLinesF_encodeFile (maxTok : Nat) :
    ∀ (sub : List RecordR) (fuel : Nat), (encodeFile sub).length < fuel →
      (∀ r ∈ sub, WFRecord maxTok r) →
      splitLinesF maxTok fuel (encodeFile sub) = (sub.map lineOf, false) := by
  intro sub
  induction sub with
  | nil =>
    intro fuel hf _
    match fuel, hf with
    | f + 1, _ => simp [splitLinesF_succ, encodeFile]
  | cons r rest ih =>
    intro fuel hf hwf
    have hwfr := hwf r (List.mem_cons_self ..)
    match fuel, hf with
    | f + 1, hf =>
      have hE : (encodeFile rest).length < f := by
        rw [encodeFile_cons] at hf
        have := lineOf_length r
        simp only [List.length_append, List.length_cons] at hf
        omega
      obtain ⟨htake, hdrop⟩ := takeWhile_all_append (fun c => !(c == measurementDelim))
        (lineOf r) (measurementDelim :: encodeFile rest) (lineOf_no_delim maxTok r hwfr)
      have htake2 : (measurementDelim :: encodeFile rest).takeWhile
          (fun c => !(c == measurementDelim)) = [] := by
        rw [List.takeWhile_cons]
        simp
      have hdrop2 : (measurementDelim :: encodeFile rest).dropWhile
          (fun c => !(c == measurementDelim)) = measurementDelim :: encodeFile rest := by
        rw [List.dropWhile_cons]
        simp
      have hT : (lineOf r ++ measurementDelim :: encodeFile rest).takeWhile
          (fun c => !(c == measurementDelim)) = lineOf r := by
        rw [htake, htake2, List.append_nil]
      have hD : (lineOf r ++ measurementDelim :: encodeFile rest).dropWhile
          (fun c => !(c == measurementDelim)) = measurementDelim :: encodeFile rest := by
        rw [hdrop, hdrop2]
      have hlenline : (lineOf r).length ≤ maxTok := by
        rw [lineOf_length]
        obtain ⟨_, _, _, hb⟩ := hwfr
        omega
      rw [encodeFile_cons, splitLinesF_succ]
      simp only [hT, hD]
      rw [if_pos hlenline, ih f hE fun x hx => hwf x (List.mem_cons_of_mem _ hx),
        dropCR_lineOf maxTok r hwfr]
      rfl

lemma splitLinesGo_encodeFile (maxTok : Nat) (sub : List RecordR)
    (hwf : ∀ r ∈ sub, WFRecord maxTok r) :
    splitLinesGo maxTok (encodeFile sub) = (sub.map lineOf, false) :=
  splitLinesF_encodeFile maxTok sub _ (by omega) hwf

lemma scanStation_append (key val : List Nat) (hk : stationDelim ∉ key) :
    scanStation (key ++ stationDelim :: val) = some key.length := by
  induction key with
  | nil => simp [scanStation]
  | cons c cs ih =>
    have hc : ¬ c = stationDelim := fun hc => hk (hc ▸ List.mem_cons_self ..)
    have hcs : stationDelim ∉ cs := fun hm => hk (List.mem_cons_of_mem _ hm)
    simp [scanStation, hc, ih hcs]

/-- A worker fed well-formed record tokens panics nowhere, hits no parse
error, and aggregates every record in order. -/
lemma processLines_wf (maxTok : Nat) :
    ∀ (sub : List RecordR) (m : ReadingsMap) (sent : List AggResult),
      (∀ r ∈ sub, WFRecord maxTok r) →
      processLines (sub.map lineOf) m sent
        = some (sent ++ [.ok ((sub.map pairOf).foldl (fun m p => updateReading m p.1 p.2) m)]) := by
  intro sub
  induction sub with
  | nil => intro m sent _; simp [processLines]
  | cons r rest ih =>
    intro m sent hwf
    obtain ⟨hk10, hk59, hparse, hlen⟩ := hwf r (List.mem_cons_self ..)
    obtain ⟨q, hq⟩ := Option.isSome_iff_exists.mp hparse
    rw [List.map_cons, processLines_cons]
    have hscan : scanStation (lineOf r) = some r.key.length := scanStation_append r.key r.val hk59
    have htake : (lineOf r).take r.key.length = r.key := by
      unfold lineOf
      exact List.take_left ..
    have hdropv : (lineOf r).drop (r.key.length + 1) = r.val := by
      unfold lineOf
      rw [show r.key.length + 1 = r.key.length + 1 from rfl, ← List.drop_drop,
        List.drop_left]
      rfl
    simp only [hscan, htake, hdropv, hq]
    rw [ih _ _ fun x hx => hwf x (List.mem_cons_of_mem _ hx)]
    simp [pairOf, hq]

lemma keysOf_updateReading (m : ReadingsMap) (k : Key) (v : ℚ) :
    keysOf (updateReading m k v) = if k ∈ keysOf m then keysOf m else keysOf m ++ [k] := by
  induction m with
  | nil => simp [updateReading, keysOf, initM]
  | cons e rest ih =>
    obtain ⟨k0, st⟩ := e
    by_cases h : k0 = k
    · subst h
      simp [updateReading, keysOf, addM]
    · have h' : ¬ k = k0 := fun hc => h hc.symm
      have hupd : updateReading ((k0, st) :: rest) k v = (k0, st) :: updateReading rest k v := by
        simp [updateReading, h]
      have hkeys : keysOf ((k0, st) :: rest) = k0 :: keysOf rest := rfl
      have hkeys2 : keysOf ((k0, st) :: updateReading rest k v)
          = k0 :: keysOf (updateReading rest k v) := rfl
      rw [hupd, hkeys2, hkeys, ih]
      by_cases hm : k ∈ keysOf rest
      · rw [if_pos hm, if_pos (List.mem_cons_of_mem _ hm)]
      · rw [if_neg hm, if_neg (by simp [h', hm])]
        simp

lemma nodupKeys_updateReading (m : ReadingsMap) (k : Key) (v : ℚ) (h : NodupKeys m) :
    NodupKeys (updateReading m k v) := by
  unfold NodupKeys at *
  rw [keysOf_updateReading]
  by_cases hm : k ∈ keysOf m
  · simpa [hm] using h
  · rw [if_neg hm]
    rw [List.nodup_append]
    exact ⟨h, List.nodup_singleton _, by simpa using hm⟩

lemma nodupKeys_foldUpd : ∀ (ps : List (Key × ℚ)) (m : ReadingsMap), NodupKeys m →
    NodupKeys (ps.foldl (fun m p => updateReading m p.1 p.2) m) := by
  intro ps
  induction ps with
  | nil => intro m h; exact h
  | cons p rest ih =>
    intro m h
    rw [List.foldl_cons]
    exact ih _ (nodupKeys_updateReading m p.1 p.2 h)

lemma nodupKeys_aggPairs (ps : List (Key × ℚ)) : NodupKeys (aggPairs ps) :=
  nodupKeys_foldUpd ps [] (by simp [NodupKeys, keysOf])

/-! ### Record boundaries as byte offsets -/

lemma encodeFile_append (a b : List RecordR) :
    encodeFile (a ++ b) = encodeFile a ++ encodeFile b := by
  simp [encodeFile]

lemma encodeRecord_length (r : RecordR) :
    (encodeRecord r).length = r.key.length + r.val.length + 2 := by
  unfold encodeRecord
  simp
  omega

lemma cumLen_zero (rsc : List RecordR) : cumLen rsc 0 = 0 := rfl

lemma cumLen_succ_cons (r : RecordR) (rest : List RecordR) (j : Nat) :
    cumLen (r :: rest) (j + 1) = (encodeRecord r).length + cumLen rest j := by
  unfold cumLen
  rw [List.take_succ_cons,
    show encodeFile (r :: rest.take j) = encodeRecord r ++ encodeFile (rest.take j) from rfl]
  simp

lemma cumLen_add (rsc : List RecordR) (i j : Nat) (hij : i ≤ j) :
    cumLen rsc j = cumLen rsc i + cumLen (rsc.drop i) (j - i) := by
  unfold cumLen
  rw [show j = i + (j - i) by omega, List.take_add, encodeFile_append]
  simp [Nat.add_sub_cancel_left]

lemma cumLen_full (rsc : List RecordR) : cumLen rsc rsc.length = (encodeFile rsc).length := by
  unfold cumLen
  rw [List.take_length]

lemma cumLen_le_full (rsc : List RecordR) (i : Nat) :
    cumLen rsc i ≤ (encodeFile rsc).length := by
  unfold cumLen
  conv_rhs => rw [show rsc = rsc.take i ++ rsc.drop i by simp]
  rw [encodeFile_append]
  simp

lemma encodeFile_len_pos (r : RecordR) (l : List RecordR) :
    1 ≤ (encodeFile (r :: l)).length := by
  rw [show encodeFile (r :: l) = encodeRecord r ++ encodeFile l from rfl]
  rw [List.length_append, encodeRecord_length]
  omega

lemma cumLen_lt (rsc : List RecordR) (i j : Nat) (hij : i < j) (hj : j ≤ rsc.length) :
    cumLen rsc i < cumLen rsc j := by
  rw [cumLen_add rsc i j (by omega)]
  have h1 : 1 ≤ cumLen (rsc.drop i) (j - i) := by
    cases hd : rsc.drop i with
    | nil =>
      have : rsc.length - i = 0 := by rw [← List.length_drop, hd]; rfl
      omega
    | cons r l =>
      rw [show j - i = (j - i - 1) + 1 by omega, cumLen_succ_cons, encodeRecord_length]
      omega
  omega

lemma drop_encodeFile (rsc : List RecordR) (i : Nat) :
    (encodeFile rsc).drop (cumLen rsc i) = encodeFile (rsc.drop i) := by
  have h : encodeFile rsc = encodeFile (rsc.take i) ++ encodeFile (rsc.drop i) := by
    rw [← encodeFile_append]
    simp
  rw [h, show cumLen rsc i = (encodeFile (rsc.take i)).length from rfl]
  exact List.drop_left ..

lemma take_encodeFile (rsc : List RecordR) (j : Nat) :
    (encodeFile rsc).take (cumLen rsc j) = encodeFile (rsc.take j) := by
  have h : encodeFile rsc = encodeFile (rsc.take j) ++ encodeFile (rsc.drop j) := by
    rw [← encodeFile_append]
    simp
  rw [h, show cumLen rsc j = (encodeFile (rsc.take j)).length from rfl]
  exact List.take_left ..

lemma slice_encodeFile (rsc : List RecordR) (i j : Nat) (hij : i ≤ j) :
    ((encodeFile rsc).drop (cumLen rsc i)).take (cumLen rsc j - cumLen rsc i)
      = encodeFile ((rsc.drop i).take (j - i)) := by
  rw [drop_encodeFile, cumLen_add rsc i j hij, Nat.add_sub_cancel_left, take_encodeFile]

lemma encodeRecord_delim_pos (maxTok : Nat) (r : RecordR) (h : WFRecord maxTok r) :
    ∀ i : Nat, (encodeRecord r)[i]? = some measurementDelim → i + 1 = (encodeRecord r).length := by
  have henc : encodeRecord r = lineOf r ++ [measurementDelim] := by
    unfold encodeRecord lineOf
    simp
  intro i hi
  rw [henc] at hi
  by_cases hlt : i < (lineOf r).length
  · exfalso
    rw [List.getElem?_append, if_pos hlt] at hi
    have hmem := List.getElem?_mem hi
    have := lineOf_no_delim maxTok r h _ hmem
    simp at this
  · rw [List.getElem?_append, if_neg (by omega)] at hi
    have hz : i - (lineOf r).length = 0 := by
      by_contra hz
      rw [show i - (lineOf r).length = (i - (lineOf r).length - 1) + 1 by omega] at hi
      simp at hi
    rw [henc]
    simp only [List.length_append, List.length_singleton]
    omega

/-- Every newline in a well-formed encoded file sits exactly one byte before
a cumulative record boundary. -/
lemma newline_pos (maxTok : Nat) :
    ∀ (rsc : List RecordR), (∀ r ∈ rsc, WFRecord maxTok r) →
      ∀ i : Nat, (encodeFile rsc)[i]? = some measurementDelim →
        ∃ j : Nat, j + 1 ≤ rsc.length ∧ i + 1 = cumLen rsc (j + 1) := by
  intro rsc
  induction rsc with
  | nil =>
    intro _ i hi
    simp [encodeFile] at hi
  | cons r rest ih =>
    intro hwf i hi
    have hsplit : encodeFile (r :: rest) = encodeRecord r ++ encodeFile rest := rfl
    by_cases hlt : i < (encodeRecord r).length
    · rw [hsplit, List.getElem?_append, if_pos hlt] at hi
      have hpos := encodeRecord_delim_pos maxTok r (hwf r (List.mem_cons_self ..)) i hi
      refine ⟨0, by simp, ?_⟩
      rw [show (0 : Nat) + 1 = 1 from rfl, show cumLen (r :: rest) 1
          = (encodeRecord r).length + cumLen rest 0 from cumLen_succ_cons r rest 0,
        cumLen_zero]
      omega
    · rw [hsplit, List.getElem?_append, if_neg (by omega)] at hi
      obtain ⟨j, hj1, hj2⟩ := ih (fun x hx => hwf x (List.mem_cons_of_mem _ hx)) _ hi
      refine ⟨j + 1, by simp; omega, ?_⟩
      rw [cumLen_succ_cons]
      omega

/-! ### From range chains to record slices -/

lemma chunk_cum (rsc : List RecordR) (i j : Nat) (hij : i ≤ j) :
    chunkBytes (encodeFile rsc) ⟨(cumLen rsc i : Int), (cumLen rsc j : Int)⟩
      = encodeFile ((rsc.drop i).take (j - i)) := by
  have hadd := cumLen_add rsc i j hij
  unfold chunkBytes
  rw [show ((cumLen rsc i : Int)).toNat = cumLen rsc i by omega,
    show (((cumLen rsc j : Int)) - (cumLen rsc i : Int)).toNat = cumLen rsc j - cumLen rsc i by
      omega]
  exact slice_encodeFile rsc i j hij

lemma chunk_cum_beyond (rsc : List RecordR) (i : Nat) (hi : i ≤ rsc.length) (b : Int)
    (hb : ((encodeFile rsc).length : Int) ≤ b) :
    chunkBytes (encodeFile rsc) ⟨(cumLen rsc i : Int), b⟩ = encodeFile (rsc.drop i) := by
  have h1 : cumLen (rsc.drop i) (rsc.length - i) = (encodeFile (rsc.drop i)).length := by
    rw [show rsc.length - i = (rsc.drop i).length by simp, cumLen_full]
  have h2 := cumLen_add rsc i rsc.length hi
  rw [cumLen_full] at h2
  have h3 := cumLen_le_full rsc i
  have hlen2 : (encodeFile (rsc.drop i)).length ≤ (b - (cumLen rsc i : Int)).toNat := by omega
  unfold chunkBytes
  rw [show ((cumLen rsc i : Int)).toNat = cumLen rsc i by omega, drop_encodeFile]
  exact List.take_of_length_le hlen2

lemma chunk_empty (file : List Nat) (b e : Int) (hb : (file.length : Int) ≤ b) :
    chunkBytes file ⟨b, e⟩ = [] := by
  unfold chunkBytes
  rw [List.drop_eq_nil_of_le (by omega : file.length ≤ (b : Int).toNat)]
  simp

/-- Walking a chain of delimiter-aligned boundaries across a well-formed
encoded file yields, for each range, a chunk that is itself an encoded run
of consecutive records, and the runs concatenate to the file's record
suffix. -/
lemma chain_to_subs (maxTok : Nat) (rsc : List RecordR) (hwf : ∀ r ∈ rsc, WFRecord maxTok r) :
    ∀ (mids : List Range) (e eL : Int) (i : Nat),
      ChainOK (encodeFile rsc) measurementDelim e mids eL →
      ((i ≤ rsc.length ∧ e = (cumLen rsc i : Int)) ∨
        (i = rsc.length ∧ ((encodeFile rsc).length : Int) < e)) →
      ∃ subs : List (List RecordR),
        subs.flatten = rsc.drop i ∧
          List.Forall₂ (fun r sub => chunkBytes (encodeFile rsc) r = encodeFile sub)
            (mids ++ [⟨eL, ((encodeFile rsc).length : Int)⟩]) subs := by
  intro mids
  induction mids with
  | nil =>
    intro e eL i hch hidx
    simp only [ChainOK] at hch
    subst hch
    rcases hidx with ⟨hi, he⟩ | ⟨hi, he⟩
    · refine ⟨[rsc.drop i], by simp, List.Forall₂.cons ?_ List.Forall₂.nil⟩
      rw [he]
      exact chunk_cum_beyond rsc i hi _ le_rfl
    · refine ⟨[[]], ?_, List.Forall₂.cons ?_ List.Forall₂.nil⟩
      · simp [hi]
      · rw [show encodeFile ([] : List RecordR) = [] from rfl]
        exact chunk_empty _ _ _ (by omega)
  | cons r mids' ih =>
    intro e eL i hch hidx
    obtain ⟨rb, re⟩ := r
    obtain ⟨hBeg, hle, h1, hdel, hch'⟩ := hch
    simp only at hBeg hle h1 hdel hch'
    by_cases hEnd : re ≤ ((encodeFile rsc).length : Int)
    · obtain ⟨hge1, hget⟩ := hdel hEnd
      obtain ⟨j, hj1, hj2⟩ := newline_pos maxTok rsc hwf (re - 1).toNat hget
      have hEq : re = (cumLen rsc (j + 1) : Int) := by omega
      rcases hidx with ⟨hi, he⟩ | ⟨hi, he⟩
      · have hii1 : i ≤ j + 1 := by
          by_contra hc
          have := cumLen_lt rsc (j + 1) i (by omega) hi
          omega
        obtain ⟨subs', hflat, hfa⟩ := ih re eL (j + 1) hch' (Or.inl ⟨hj1, hEq⟩)
        refine ⟨((rsc.drop i).take (j + 1 - i)) :: subs', ?_, List.Forall₂.cons ?_ hfa⟩
        · rw [List.flatten_cons, hflat,
            show rsc.drop (j + 1) = (rsc.drop i).drop (j + 1 - i) by
              rw [List.drop_drop]
              congr 1
              omega]
          exact List.take_append_drop ..
        · rw [show (⟨rb, re⟩ : Range) = ⟨(cumLen rsc i : Int), (cumLen rsc (j + 1) : Int)⟩ by
            rw [← he, ← hEq, ← hBeg]]
          exact chunk_cum rsc i (j + 1) hii1
      · exfalso
        have := cumLen_le_full rsc (j + 1)
        omega
    · push_neg at hEnd
      obtain ⟨subs', hflat, hfa⟩ := ih re eL rsc.length hch' (Or.inr ⟨rfl, hEnd⟩)
      rcases hidx with ⟨hi, he⟩ | ⟨hi, he⟩
      · refine ⟨(rsc.drop i) :: subs', ?_, List.Forall₂.cons ?_ hfa⟩
        · rw [List.flatten_cons, hflat, List.drop_length]
          simp
        · rw [show (⟨rb, re⟩ : Range) = ⟨(cumLen rsc i : Int), re⟩ by rw [← he, ← hBeg]]
          exact chunk_cum_beyond rsc i hi re (by omega)
      · refine ⟨[] :: subs', ?_, List.Forall₂.cons ?_ hfa⟩
        · rw [List.flatten_cons, hflat, hi, List.drop_length]
          rfl
        · rw [show encodeFile ([] : List RecordR) = [] from rfl]
          exact chunk_empty _ _ _ (by omega)

/-! ### Statistics algebra and the merged result -/

lemma addM_eq_combineM (st : Measurements) (v : ℚ) : addM st v = combineM st (initM v) := rfl

lemma foldl_addM_combineM (vs : List ℚ) :
    ∀ (A B : Measurements), vs.foldl addM (combineM A B) = combineM A (vs.foldl addM B) := by
  induction vs with
  | nil => intros; rfl
  | cons v rest ih =>
    intro A B
    rw [List.foldl_cons, List.foldl_cons,
      show addM (combineM A B) v = combineM A (addM B v) by
        rw [addM_eq_combineM, addM_eq_combineM, combineM_assoc]]
    exact ih A (addM B v)

lemma statsO_append (xs ys : List ℚ) :
    statsO (xs ++ ys) = combineO (statsO xs) (statsO ys) := by
  cases xs with
  | nil => simp [statsO, combineO]
  | cons v vs =>
    cases ys with
    | nil => simp [statsO, combineO]
    | cons w ws =>
      show statsO (v :: (vs ++ w :: ws)) = _
      simp only [statsO, combineO]
      rw [List.foldl_append, List.foldl_cons, addM_eq_combineM, foldl_addM_combineM]

lemma foldl_combineO_statsO :
    ∀ (ls : List (List ℚ)) (a : List ℚ),
      (ls.map statsO).foldl combineO (statsO a) = statsO (a ++ ls.flatten) := by
  intro ls
  induction ls with
  | nil => intro a; simp
  | cons l rest ih =>
    intro a
    rw [List.map_cons, List.foldl_cons, ← statsO_append, ih, List.flatten_cons,
      List.append_assoc]

lemma valuesOf_append (ps qs : List (Key × ℚ)) (k : Key) :
    valuesOf (ps ++ qs) k = valuesOf ps k ++ valuesOf qs k := by
  unfold valuesOf
  rw [List.filter_append, List.map_append]

lemma valuesOf_flatten (pss : List (List (Key × ℚ))) (k : Key) :
    valuesOf pss.flatten k = (pss.map fun ps => valuesOf ps k).flatten := by
  induction pss with
  | nil => rfl
  | cons ps rest ih =>
    rw [List.flatten_cons, valuesOf_append, ih, List.map_cons, List.flatten_cons]

lemma mergerRun_oks : ∀ (ms : List ReadingsMap) (acc : ReadingsMap),
    mergerRun ms.length (ms.map .ok) acc = (some (.ok (ms.foldl mergeMaps acc)), ms.length) := by
  intro ms
  induction ms with
  | nil => intro acc; rfl
  | cons m rest ih =>
    intro acc
    rw [List.map_cons, List.length_cons]
    show mergerRun (rest.length + 1) (.ok m :: rest.map .ok) acc = _
    simp [mergerRun, ih, List.foldl_cons]

lemma mapM_tasks (file : List Nat) (maxTok : Nat) :
    ∀ (rs : List Range) (subs : List (List RecordR)),
      List.Forall₂ (fun r sub => chunkBytes file r = encodeFile sub) rs subs →
      (∀ sub ∈ subs, ∀ x ∈ sub, WFRecord maxTok x) →
      rs.mapM (fun r => taskEmits file r maxTok)
        = some (subs.map fun sub => [AggResult.ok (aggPairs (sub.map pairOf))]) := by
  intro rs subs hfa
  induction hfa with
  | nil => intro _; rfl
  | @cons r sub rs' subs' hr hrest ih =>
    intro hwf
    have htask : taskEmits file r maxTok = some [AggResult.ok (aggPairs (sub.map pairOf))] := by
      unfold taskEmits
      rw [hr, splitLinesGo_encodeFile maxTok sub (hwf sub (List.mem_cons_self ..))]
      rw [show (sub.map lineOf, false).1 = sub.map lineOf from rfl]
      rw [processLines_wf maxTok sub [] [] (hwf sub (List.mem_cons_self ..))]
      rfl
    rw [List.mapM_cons]
    simp only [htask, ih fun s hs => hwf s (List.mem_cons_of_mem _ hs)]
    rfl

lemma flatten_singletons (ms : List ReadingsMap) :
    (ms.map fun m => [AggResult.ok m]).flatten = ms.map AggResult.ok := by
  induction ms with
  | nil => rfl
  | cons m rest ih => simp [ih]

/-- Pointwise value of the final merge over per-chunk aggregates: it agrees
with aggregating the concatenation of the chunks' records. -/
lemma lookup_foldMerge_subs (subs : List (List RecordR)) (key : Key) :
    lookupR ((subs.map fun sub => aggPairs (sub.map pairOf)).foldl mergeMaps []) key
      = statsO (valuesOf (subs.flatten.map pairOf) key) := by
  rw [lookupR_foldMerge _ _ _ fun m hm => by
    obtain ⟨sub, _, hsub⟩ := List.mem_map.mp hm
    rw [← hsub]
    exact nodupKeys_aggPairs _]
  rw [show lookupR [] key = none from rfl]
  rw [List.map_map]
  have h1 : ((fun m => lookupR m key) ∘ fun (sub : List RecordR) => aggPairs (sub.map pairOf))
      = fun (sub : List RecordR) => statsO (valuesOf (sub.map pairOf) key) := by
    funext sub
    simp only [Function.comp_apply]
    exact lookupR_aggPairs _ _
  rw [h1]
  have h2 : (subs.map fun sub => statsO (valuesOf (sub.map pairOf) key))
      = ((subs.map fun sub => valuesOf (sub.map pairOf) key).map statsO) := by
    rw [List.map_map]
    rfl
  rw [h2, show (none : Option Measurements) = statsO [] from rfl, foldl_combineO_statsO]
  rw [List.nil_append]
  congr 1
  rw [show (subs.map fun sub => valuesOf (sub.map pairOf) key)
      = ((subs.map fun sub => sub.map pairOf).map fun ps => valuesOf ps key) by
    rw [List.map_map]; rfl]
  rw [← valuesOf_flatten]
  congr 1
  rw [← List.map_flatten]

/-- Reduction of `runModel` when the partition succeeds and every task
succeeds with a single mapping. -/
lemma runModel_of_ranges (file : List Nat) (n : Int) (maxTok : Nat) (rs : List Range)
    (ms : List ReadingsMap)
    (hdr : determineRanges file n measurementDelim = some (.ok rs))
    (hlen : rs.length = n.toNat) (hms : ms.length = n.toNat)
    (htasks : rs.mapM (fun r => taskEmits file r maxTok)
      = some (ms.map fun m => [AggResult.ok m])) :
    runModel file n maxTok = some (.ok (ms.foldl mergeMaps [])) := by
  unfold runModel
  simp only [hdr]
  rw [show rs.take n.toNat = rs by rw [← hlen]; exact List.take_length rs]
  rw [if_neg (by omega)]
  simp only [htasks]
  rw [flatten_singletons ms, ← hms, mergerRun_oks]

lemma determineRanges_one (file : List Nat) (delim : Nat) :
    determineRanges file 1 delim = some (.ok [⟨0, (file.length : Int)⟩]) := by
  unfold determineRanges
  rw [if_pos rfl]

lemma chunkBytes_full (file : List Nat) : chunkBytes file ⟨0, (file.length : Int)⟩ = file := by
  unfold chunkBytes
  simp

lemma map_ok_agg (subs : List (List RecordR)) :
    ((subs.map fun sub => aggPairs (sub.map pairOf)).map fun m => [AggResult.ok m])
      = subs.map fun sub => [AggResult.ok (aggPairs (sub.map pairOf))] := by
  rw [List.map_map]
  rfl

/-- On a well-formed file, any worker count whose partition succeeds leads to
a successful run whose merged mapping is the fold of the per-chunk
aggregates of a record partition of the file. -/
lemma runModel_wf (rsc : List RecordR) (maxTok : Nat) (k : Int)
    (hwf : ∀ r ∈ rsc, WFRecord maxTok r) (hk : 1 ≤ k) (rs : List Range)
    (hdr : determineRanges (encodeFile rsc) k measurementDelim = some (.ok rs)) :
    ∃ subs : List (List RecordR), subs.flatten = rsc ∧
      runModel (encodeFile rsc) k maxTok
        = some (.ok ((subs.map fun sub => aggPairs (sub.map pairOf)).foldl mergeMaps [])) := by
  by_cases hk1 : k = 1
  · subst hk1
    refine ⟨[rsc], by simp, ?_⟩
    apply runModel_of_ranges (encodeFile rsc) 1 maxTok
      [⟨0, ((encodeFile rsc).length : Int)⟩] [aggPairs (rsc.map pairOf)]
      (determineRanges_one ..) rfl rfl
    exact mapM_tasks (encodeFile rsc) maxTok _ [rsc]
      (List.Forall₂.cons (chunkBytes_full _) List.Forall₂.nil)
      (fun sub hsub x hx => by
        rcases List.mem_singleton.mp hsub with rfl
        exact hwf x hx)
  · have hk2 : 2 ≤ k := by omega
    have hdr0 := hdr
    simp only [determineRanges] at hdr
    rw [if_neg hk1, if_neg (by omega : ¬ k = 0)] at hdr
    by_cases ha0 : ((encodeFile rsc).length : Int) / k = 0
    · rw [if_pos ha0] at hdr
      exact absurd hdr (by simp)
    · rw [if_neg ha0] at hdr
      obtain ⟨hcast, hp1, hpL⟩ := approxSize_facts (encodeFile rsc) k (by omega) ha0
      cases hscan : scanLoop (encodeFile rsc) measurementDelim
          (scanFuel (encodeFile rsc) (((encodeFile rsc).length : Int) / k))
          (((encodeFile rsc).length : Int) / k) ⟨0, 0⟩ with
      | none => rw [hscan] at hdr; exact absurd hdr (by simp)
      | some p0 =>
        obtain ⟨e0, s0⟩ := p0
        simp only [hscan] at hdr
        by_cases he0 : e0 < 0
        · rw [if_pos he0] at hdr
          exact absurd hdr (by simp)
        · rw [if_neg he0] at hdr
          cases hbm : buildMiddles (encodeFile rsc) measurementDelim
              (((encodeFile rsc).length : Int) / k) (k - 2).toNat e0 s0 with
          | none => rw [hbm] at hdr; exact absurd hdr (by simp)
          | some t =>
            obtain ⟨mids, eL, sF⟩ := t
            simp only [hbm, Option.some.injEq, Except.ok.injEq] at hdr
            subst hdr
            have hscan' : scanLoop (encodeFile rsc) measurementDelim
                (scanFuel (encodeFile rsc)
                  (((((encodeFile rsc).length : Int) / k).toNat : Nat) : Int))
                (((((encodeFile rsc).length : Int) / k).toNat : Nat) : Int) ⟨0, 0⟩
                = some (e0, s0) := by
              rw [← hcast]
              exact hscan
            have he01 : 1 ≤ e0 :=
              first_scan_ge_one (encodeFile rsc) e0 s0 _ hp1 hpL hscan' he0
            have hub := scanLoop_ub (encodeFile rsc) measurementDelim _ _ _ _ _ hscan
            have he0L : e0 ≤ ((encodeFile rsc).length : Int) := by omega
            have hpost := scanLoop_post (encodeFile rsc) measurementDelim _ _ _ _ _ hscan
            have hd0 : delimAt (encodeFile rsc) measurementDelim e0 := by
              rcases hpost.2 with hb1 | hb2 | hb3
              · omega
              · omega
              · exact ⟨hb3.1, hb3.2.2⟩
            have ha1 : 1 ≤ ((encodeFile rsc).length : Int) / k := by omega
            obtain ⟨hch, hlenm, heL1, heL2⟩ :=
              buildMiddles_chain_drift (encodeFile rsc) measurementDelim _ ha1 _ e0 s0
                mids eL sF hbm he01 (fun _ => hd0) hpost.1
            obtain ⟨j, hj1, hj2⟩ := newline_pos maxTok rsc hwf (e0 - 1).toNat hd0.2
            have hEq : e0 = (cumLen rsc (j + 1) : Int) := by omega
            obtain ⟨subs', hflat', hfa'⟩ :=
              chain_to_subs maxTok rsc hwf mids e0 eL (j + 1) hch (Or.inl ⟨hj1, hEq⟩)
            refine ⟨rsc.take (j + 1) :: subs', ?_, ?_⟩
            · rw [List.flatten_cons, hflat']
              exact List.take_append_drop ..
            · have hhead : chunkBytes (encodeFile rsc) ⟨0, e0⟩
                  = encodeFile (rsc.take (j + 1)) := by
                rw [show (⟨0, e0⟩ : Range)
                    = ⟨((cumLen rsc 0 : Nat) : Int), ((cumLen rsc (j + 1) : Nat) : Int)⟩ by
                  rw [cumLen_zero, ← hEq]
                  simp]
                rw [chunk_cum rsc 0 (j + 1) (by omega)]
                simp
              have hfa : List.Forall₂
                  (fun r sub => chunkBytes (encodeFile rsc) r = encodeFile sub)
                  (⟨0, e0⟩ :: (mids ++ [⟨eL, ((encodeFile rsc).length : Int)⟩]))
                  (rsc.take (j + 1) :: subs') :=
                List.Forall₂.cons hhead hfa'
              apply runModel_of_ranges (encodeFile rsc) k maxTok _ _ hdr0
              · simp only [List.length_cons, List.length_append, List.length_singleton,
                  List.length_nil, hlenm]
                omega
              · simp only [List.length_map, List.length_cons]
                rw [← List.Forall₂.length_eq hfa']
                simp only [List.length_append, List.length_singleton, List.length_nil, hlenm]
                omega
              · rw [map_ok_agg]
                apply mapM_tasks _ _ _ _ hfa
                intro sub hsub x hx
                rcases List.mem_cons.mp hsub with rfl | hsub
                · exact hwf x (List.mem_of_mem_take hx)
                · have hx' : x ∈ subs'.flatten := List.mem_flatten.mpr ⟨sub, hsub, hx⟩
                  rw [hflat'] at hx'
                  exact hwf x (List.mem_of_mem_drop hx')

/-- C3 amended: in exact arithmetic, for a fixed well-formed input file,
running the pipeline with one worker yields the same aggregate mapping —
same keys, same statistics (hence the same min, mean and max) per key — as
running it with any feasible worker count `k`.  Under the program's binary32
`Sum` the regrouped sums can differ between worker counts, so partition
invariance fails for the real pipeline: see `C3_cex`. -/
theorem C3_partition_invariance (rsc : List RecordR) (maxTok : Nat) (k : Int)
    (hwf : ∀ r ∈ rsc, WFRecord maxTok r) (hk : 1 ≤ k)
    (hfeas : ∃ rs, determineRanges (encodeFile rsc) k measurementDelim = some (.ok rs)) :
    ∃ mk m1, runModel (encodeFile rsc) k maxTok = some (.ok mk) ∧
      runModel (encodeFile rsc) 1 maxTok = some (.ok m1) ∧
      ∀ key, lookupR mk key = lookupR m1 key := by
  obtain ⟨rs, hdr⟩ := hfeas
  obtain ⟨subsK, hflatK, hrunK⟩ := runModel_wf rsc maxTok k hwf hk rs hdr
  obtain ⟨subs1, hflat1, hrun1⟩ :=
    runModel_wf rsc maxTok 1 hwf le_rfl _ (determineRanges_one (encodeFile rsc) measurementDelim)
  refine ⟨_, _, hrunK, hrun1, ?_⟩
  intro key
  rw [lookup_foldMerge_subs, lookup_foldMerge_subs, hflatK, hflat1]

theorem C3_witness :
    (∀ r ∈ [RecordR.mk [97] [49], RecordR.mk [98] [50]], WFRecord 65536 r) ∧
      (1 : Int) ≤ 2 ∧
      determineRanges (encodeFile [RecordR.mk [97] [49], RecordR.mk [98] [50]]) 2 measurementDelim
        = some (.ok [⟨0, 4⟩, ⟨4, 8⟩]) ∧
      ∃ mk m1,
        runModel (encodeFile [RecordR.mk [97] [49], RecordR.mk [98] [50]]) 2 65536
            = some (.ok mk) ∧
          runModel (encodeFile [RecordR.mk [97] [49], RecordR.mk [98] [50]]) 1 65536
            = some (.ok m1) ∧
          ∀ key, lookupR mk key = lookupR m1 key :=
  ⟨by decide, by decide, by decide,
    C3_partition_invariance [RecordR.mk [97] [49], RecordR.mk [98] [50]] 65536 2
      (by decide) (by decide) ⟨[⟨0, 4⟩, ⟨4, 8⟩], by decide⟩⟩

/-- C3 counterexample under the program's binary32 `Sum` (`float32`,
`main.go` line 24): on the file `a;16777216\na;01\na;01\n` the per-key sum
is 16777216 with one worker — each addition of 1 to 2^24 rounds back down —
but 16777218 with two workers, where the two 1s are added exactly in the
second chunk before the merge.  The reported means differ, so partition
invariance fails for the real float32 pipeline and holds only for the
exact-value model. -/
theorem C3_cex :
    runSums c3file 1 65536 = some [([97], 16777216)] ∧
      runSums c3file 2 65536 = some [([97], 16777218)] ∧
      (16777216 : Nat) ≠ 16777218 := by
  decide

theorem C1_amended_witness :
    1 ≤ ([97, 59, 49, 10, 98, 59, 50, 10] : List Nat).length ∧
      determineRanges [97, 59, 49, 10, 98, 59, 50, 10] 2 measurementDelim
        = some (.ok [⟨0, 4⟩, ⟨4, 8⟩]) ∧
      (([⟨0, 4⟩, ⟨4, 8⟩] : List Range).length : Int) = 2 ∧
      Contiguous [⟨0, 4⟩, ⟨4, 8⟩] ∧
      (∀ r ∈ ([⟨0, 4⟩, ⟨4, 8⟩] : List Range),
        r.End ≤ (([97, 59, 49, 10, 98, 59, 50, 10] : List Nat).length : Int)) ∧
      DisjointRanges [(⟨0, 4⟩ : Range), ⟨4, 8⟩] := by
  refine ⟨by decide, by decide, ?_, ?_, by decide, ?_⟩
  · exact (C1_amended [97, 59, 49, 10, 98, 59, 50, 10] 2 [⟨0, 4⟩, ⟨4, 8⟩]
      (by decide) (by decide) (by decide)).1.1
  · exact (C1_amended [97, 59, 49, 10, 98, 59, 50, 10] 2 [⟨0, 4⟩, ⟨4, 8⟩]
      (by decide) (by decide) (by decide)).1.2.2.2
  · exact ((C1_amended [97, 59, 49, 10, 98, 59, 50, 10] 2 [⟨0, 4⟩, ⟨4, 8⟩]
      (by decide) (by decide) (by decide)).2 (by decide)).2.2.2

end OneBRC
